import Mathlib

/-!
# Verification of the chartings indicator / volume-profile engine

A shallow embedding, over exact rational arithmetic, of the numeric core of
the `chartings` trading-dashboard repository:

* `calculateRSI`        (src/components/Indicators/RSICalculator.ts)
* `calculateVRVP`       (src/components/VRVP/VRVPCalculator.ts)
* `aggregateCandles`    (src/api/crypto/cryptoCompareApi.ts and the Binance
                         adapter's identical copy)
* `processCandles`      (src/api/crypto/cryptoCompareApi.ts)
* `loadMoreHistory`'s merge step (src/hooks/useCandlestickData.ts)
* `calculateGuppy` / `calculateEMA` (Guppy multi-EMA indicator)
* `calculateKeyLevels` / `keyLevelsToArray`
                        (src/components/Indicators/KeyLevelsCalculator.ts)
* the provider-fallback decision logic of `fetchData`
                        (src/hooks/useCandlestickData.ts)

JavaScript `number`s are modelled as `ℚ` (the spec's conservation claims are
stated "exact over rational/real arithmetic"); unix timestamps as `ℤ`.
-/

set_option maxRecDepth 4000

namespace Chartings

/-- OHLCV candle, `CandleData` of src/types/chart.ts.  `time` is integer unix
seconds; prices and volume are modelled as exact rationals. -/
structure Candle where
  time : ℤ
  «open» : ℚ
  high : ℚ
  low : ℚ
  close : ℚ
  volume : ℚ
  deriving Repr, DecidableEq

instance : Inhabited Candle := ⟨⟨0, 0, 0, 0, 0, 0⟩⟩

/-! ## RSI (src/components/Indicators/RSICalculator.ts) -/

/-- `RSIPoint` of RSICalculator.ts. -/
structure RSIPoint where
  time : ℤ
  value : ℚ
  deriving Repr, DecidableEq

/-- One step of the Wilder-smoothing loop of `calculateRSI` (lines 37-48):
from the running averages and the next (gain, loss, time) triple, produce the
updated averages and the emitted RSI value. -/
def rsiStep (period : ℕ) (avgGain avgLoss g l : ℚ) : ℚ × ℚ × ℚ :=
  let ag := (avgGain * ((period : ℚ) - 1) + g) / (period : ℚ)
  let al := (avgLoss * ((period : ℚ) - 1) + l) / (period : ℚ)
  let rs := if al = 0 then 100 else ag / al
  (ag, al, 100 - 100 / (1 + rs))

/-- The smoothing loop of `calculateRSI`: walks the remaining (gain, loss)
pairs zipped with the emission times `data[i+1].time`. -/
def rsiLoop (period : ℕ) (avgGain avgLoss : ℚ) :
    List ((ℚ × ℚ) × ℤ) → List RSIPoint
  | [] => []
  | ((g, l), t) :: rest =>
    let s := rsiStep period avgGain avgLoss g l
    ⟨t, s.2.2⟩ :: rsiLoop period s.1 s.2.1 rest

/-- Close-to-close changes of `calculateRSI` (lines 17-21). -/
def rsiChanges (data : List Candle) : List ℚ :=
  (data.zip data.tail).map fun pc => pc.2.close - pc.1.close

/-- Per-bar gains (`change > 0 ? change : 0`). -/
def rsiGains (data : List Candle) : List ℚ :=
  (rsiChanges data).map fun ch => if 0 < ch then ch else 0

/-- Per-bar losses (`change < 0 ? -change : 0`). -/
def rsiLosses (data : List Candle) : List ℚ :=
  (rsiChanges data).map fun ch => if ch < 0 then -ch else 0

/-- Simple-mean seed of the average gain (lines 24-25). -/
def rsiSeedGain (data : List Candle) (period : ℕ) : ℚ :=
  (((rsiGains data).take period).foldl (· + ·) 0) / (period : ℚ)

/-- Simple-mean seed of the average loss (lines 24-25). -/
def rsiSeedLoss (data : List Candle) (period : ℕ) : ℚ :=
  (((rsiLosses data).take period).foldl (· + ·) 0) / (period : ℚ)

/-- `calculateRSI` of RSICalculator.ts.  Guard (line 10): fewer than
`period+1` candles gives `[]`.  The first point pairs the seeded averages with
`data[period].time`; the remaining points come from the Wilder loop. -/
def calculateRSI (data : List Candle) (period : ℕ) : List RSIPoint :=
  if data.length < period + 1 then []
  else
    let avgGain := rsiSeedGain data period
    let avgLoss := rsiSeedLoss data period
    let rs := if avgLoss = 0 then (100 : ℚ) else avgGain / avgLoss
    let first : RSIPoint :=
      ⟨((data.drop period).headI).time, 100 - 100 / (1 + rs)⟩
    let rest :=
      ((rsiGains data).drop period).zip ((rsiLosses data).drop period)
        |>.zip ((data.drop (period + 1)).map Candle.time)
    first :: rsiLoop period avgGain avgLoss rest

/-- Trace of the running `(avgGain, avgLoss, rsi)` triples of the Wilder loop,
in step with `rsiLoop`. -/
def rsiLoopTrace (period : ℕ) (avgGain avgLoss : ℚ) :
    List ((ℚ × ℚ) × ℤ) → List (ℚ × ℚ × ℚ)
  | [] => []
  | ((g, l), _) :: rest =>
    let s := rsiStep period avgGain avgLoss g l
    s :: rsiLoopTrace period s.1 s.2.1 rest

/-- The `(avgGain, avgLoss, rsi)` triple attached to every output index of
`calculateRSI`: the seeded triple first, then the Wilder-smoothed ones. -/
def rsiTrace (data : List Candle) (period : ℕ) : List (ℚ × ℚ × ℚ) :=
  if data.length < period + 1 then []
  else
    let avgGain := rsiSeedGain data period
    let avgLoss := rsiSeedLoss data period
    let rs := if avgLoss = 0 then (100 : ℚ) else avgGain / avgLoss
    let rest :=
      ((rsiGains data).drop period).zip ((rsiLosses data).drop period)
        |>.zip ((data.drop (period + 1)).map Candle.time)
    (avgGain, avgLoss, 100 - 100 / (1 + rs)) :: rsiLoopTrace period avgGain avgLoss rest

theorem rsiLoop_values (period : ℕ) (ag al : ℚ) (l : List ((ℚ × ℚ) × ℤ)) :
    (rsiLoop period ag al l).map RSIPoint.value
      = (rsiLoopTrace period ag al l).map (fun e => e.2.2) := by
  induction l generalizing ag al with
  | nil => rfl
  | cons hd tl ih =>
    obtain ⟨⟨g, lo⟩, t⟩ := hd
    simp [rsiLoop, rsiLoopTrace, ih]

theorem calculateRSI_values (data : List Candle) (period : ℕ) :
    (calculateRSI data period).map RSIPoint.value
      = (rsiTrace data period).map (fun e => e.2.2) := by
  unfold calculateRSI rsiTrace
  by_cases h : data.length < period + 1
  · simp [h]
  · simp [h, rsiLoop_values]

/-- In the trace, a zero running average loss forces the emitted value to be
`100 - 100/101 = 10000/101`. -/
theorem rsiLoopTrace_zero_loss (period : ℕ) (ag al : ℚ)
    (l : List ((ℚ × ℚ) × ℤ)) :
    ∀ e ∈ rsiLoopTrace period ag al l, e.2.1 = 0 → e.2.2 = 10000 / 101 := by
  induction l generalizing ag al with
  | nil => intro e he; simp [rsiLoopTrace] at he
  | cons hd tl ih =>
    obtain ⟨⟨g, lo⟩, t⟩ := hd
    intro e he h0
    simp only [rsiLoopTrace, List.mem_cons] at he
    rcases he with he | he
    · subst he
      simp only [rsiStep] at h0 ⊢
      rw [h0]
      norm_num
    · exact ih _ _ e he h0

/-- Every trace entry with zero average loss carries the value `10000/101`. -/
theorem rsiTrace_zero_loss (data : List Candle) (period : ℕ) :
    ∀ e ∈ rsiTrace data period, e.2.1 = 0 → e.2.2 = 10000 / 101 := by
  unfold rsiTrace
  by_cases h : data.length < period + 1
  · simp [h]
  · simp only [h, if_false, List.mem_cons]
    intro e he h0
    rcases he with he | he
    · subst he
      simp only at h0 ⊢
      rw [h0]
      norm_num
    · exact rsiLoopTrace_zero_loss period _ _ _ e he h0

/-- **C1** (corrected).  In `calculateRSI`, whenever the running average loss
(seeded or Wilder-smoothed) is `0` at an output index, the emitted RSI value
is `100 - 100/(1+100) = 10000/101 ≈ 99.0099` — the code substitutes
`RS = 100` when `avgLoss === 0` (RSICalculator.ts lines 28, 41), so the value
is not the claimed `100`. -/
theorem rsi_avgLoss_zero_value (data : List Candle) (period : ℕ) (k : ℕ)
    (ag al v : ℚ) (p : RSIPoint)
    (htr : (rsiTrace data period).get? k = some (ag, al, v))
    (hp : (calculateRSI data period).get? k = some p)
    (h0 : al = 0) : p.value = 10000 / 101 := by
  have hv : v = 10000 / 101 := by
    have hm : (ag, al, v) ∈ rsiTrace data period := List.get?_mem htr
    simpa using rsiTrace_zero_loss data period _ hm h0
  have hmap := congrArg (fun l => l.get? k) (calculateRSI_values data period)
  simp only [List.get?_map, htr, hp, Option.map_some] at hmap
  have : p.value = v := by
    injection hmap with h
  rw [this, hv]

/-- 15 candles with strictly increasing closes `1..15`: all deltas are gains,
so the seeded average loss is `0`. -/
def rsiData15 : List Candle :=
  (List.range 15).map fun i => ⟨i, (i + 1 : ℚ), (i + 1 : ℚ), (i + 1 : ℚ), (i + 1 : ℚ), 0⟩

/-- **C1 counterexample.**  On `rsiData15` with the default period 14 the
seeded average loss is `0`, yet the RSI emitted at that output index is
`10000/101`, which is not `100` — refuting the claim as stated. -/
theorem rsi_claim_counterexample :
    rsiSeedLoss rsiData15 14 = 0 ∧
    (calculateRSI rsiData15 14).get? 0 = some ⟨14, 10000 / 101⟩ ∧
    (10000 / 101 : ℚ) ≠ 100 := by
  refine ⟨?_, ?_, ?_⟩ <;>
    norm_num [calculateRSI, rsiSeedGain, rsiSeedLoss, rsiGains, rsiLosses, rsiChanges,
      rsiData15, List.range_succ]

/-- Witness for `rsi_avgLoss_zero_value` at the concrete input `rsiData15`. -/
theorem rsi_avgLoss_zero_value_witness :
    RSIPoint.value ⟨14, 10000 / 101⟩ = 10000 / 101 :=
  rsi_avgLoss_zero_value rsiData15 14 0 1 0 (10000 / 101) ⟨14, 10000 / 101⟩
    (by norm_num [rsiTrace, rsiSeedGain, rsiSeedLoss, rsiGains, rsiLosses, rsiChanges,
      rsiData15, List.range_succ])
    (by norm_num [calculateRSI, rsiSeedGain, rsiSeedLoss, rsiGains, rsiLosses, rsiChanges,
      rsiData15, List.range_succ])
    rfl

/-! ## VRVP (src/components/VRVP/VRVPCalculator.ts)

`NUM_ROWS = 200`, `VALUE_AREA_PERCENT = 0.70`.  The 200-slot `levels` array is
modelled as a function `ℕ → PriceLevel` folded over the candles; the returned
`levels` list is its restriction to indices `0..199`. -/

/-- `PriceLevel` of src/types/chart.ts. -/
structure PriceLevel where
  price : ℚ
  volume : ℚ
  buyVolume : ℚ
  sellVolume : ℚ
  deriving Repr, DecidableEq

/-- `VRVPData` of src/types/chart.ts. -/
structure VRVPData where
  levels : List PriceLevel
  poc : ℚ
  valueAreaHigh : ℚ
  valueAreaLow : ℚ
  maxVolume : ℚ
  deriving Repr, DecidableEq

/-- `Math.max(...)` over a list (the VRVP window is non-empty wherever this is
used, so the `[]` default is never reached). -/
def qmax : List ℚ → ℚ
  | [] => 0
  | x :: xs => xs.foldl max x

/-- `Math.min(...)` over a list. -/
def qmin : List ℚ → ℚ
  | [] => 0
  | x :: xs => xs.foldl min x

/-- `highPrice = Math.max(...candles.map(c => c.high))` (line 17). -/
def windowHigh (candles : List Candle) : ℚ := qmax (candles.map Candle.high)

/-- `lowPrice = Math.min(...candles.map(c => c.low))` (line 18). -/
def windowLow (candles : List Candle) : ℚ := qmin (candles.map Candle.low)

/-- `rowHeight = priceRange / NUM_ROWS` (line 31). -/
def rowHeight (candles : List Candle) : ℚ :=
  (windowHigh candles - windowLow candles) / 200

/-- Row index receiving a zero-range candle's full volume (lines 49-52):
`Math.min(NUM_ROWS-1, Math.max(0, Math.floor((close - lowPrice)/rowHeight)))`. -/
def zeroRangeRow (low h : ℚ) (c : Candle) : ℕ :=
  (min 199 (max 0 ⌊(c.close - low) / h⌋)).toNat

/-- Distribution of one candle's volume over the 200 rows (lines 44-81),
as a pointwise update of the accumulating level function. -/
def addCandle (low h : ℚ) (f : ℕ → PriceLevel) (c : Candle) : ℕ → PriceLevel :=
  let isBullish := c.«open» ≤ c.close
  let candleRange := c.high - c.low
  if candleRange = 0 then
    fun i =>
      if i = zeroRangeRow low h c then
        { f i with
          volume := (f i).volume + c.volume
          buyVolume := if isBullish then (f i).buyVolume + c.volume else (f i).buyVolume
          sellVolume := if isBullish then (f i).sellVolume else (f i).sellVolume + c.volume }
      else f i
  else
    fun i =>
      let levelLow := low + i * h
      let levelHigh := levelLow + h
      let overlap := max 0 (min c.high levelHigh - max c.low levelLow)
      if 0 < overlap then
        let volumeShare := overlap / candleRange * c.volume
        { f i with
          volume := (f i).volume + volumeShare
          buyVolume := if isBullish then (f i).buyVolume + volumeShare else (f i).buyVolume
          sellVolume := if isBullish then (f i).sellVolume else (f i).sellVolume + volumeShare }
      else f i

/-- The accumulated level function after folding all candles over the
freshly initialised rows (lines 32-81). -/
def levelsFn (candles : List Candle) : ℕ → PriceLevel :=
  candles.foldl (addCandle (windowLow candles) (rowHeight candles))
    (fun i => ⟨windowLow candles + ((i : ℚ) + 1 / 2) * rowHeight candles, 0, 0, 0⟩)

/-- The `maxVolume` / `pocIndex` scan (lines 83-91): strict `>` against an
accumulator starting at `(0, 0)`, so the first row of maximum volume wins. -/
def pocScan (vols : ℕ → ℚ) : ℚ × ℕ :=
  (List.range 200).foldl (fun mp i => if mp.1 < vols i then (vols i, i) else mp) (0, 0)

/-- State of the value-area expansion loop: current span `[lower, upper]`
and accumulated volume. -/
structure VAState where
  upper : ℕ
  lower : ℕ
  vol : ℚ
  deriving Repr, DecidableEq

/-- `upperVolume` of the loop body (line 103): volume of the row above the
span, or `0` at the top boundary. -/
def upVol (vols : ℕ → ℚ) (s : VAState) : ℚ :=
  if s.upper < 199 then vols (s.upper + 1) else 0

/-- `lowerVolume` of the loop body (line 104): volume of the row below the
span, or `0` at the bottom boundary. -/
def loVol (vols : ℕ → ℚ) (s : VAState) : ℚ :=
  if 0 < s.lower then vols (s.lower - 1) else 0

/-- One iteration of the value-area `while` body (lines 103-115). -/
def vaStep (vols : ℕ → ℚ) (s : VAState) : VAState :=
  if loVol vols s ≤ upVol vols s ∧ s.upper < 199 then
    ⟨s.upper + 1, s.lower, s.vol + upVol vols s⟩
  else if 0 < s.lower then
    ⟨s.upper, s.lower - 1, s.vol + loVol vols s⟩
  else if s.upper < 199 then
    ⟨s.upper + 1, s.lower, s.vol + upVol vols s⟩
  else s

/-- The value-area `while` loop (line 102), fuelled; 200 units of fuel are
enough since every guarded iteration strictly widens the span. -/
def vaLoop (vols : ℕ → ℚ) (target : ℚ) : ℕ → VAState → VAState
  | 0, s => s
  | fuel + 1, s =>
    if s.vol < target ∧ (s.upper < 199 ∨ 0 < s.lower) then
      vaLoop vols target fuel (vaStep vols s)
    else s

/-- Row-volume function of a window. -/
def rowVol (candles : List Candle) (i : ℕ) : ℚ := (levelsFn candles i).volume

/-- `pocIndex` after the scan. -/
def pocIndex (candles : List Candle) : ℕ := (pocScan (rowVol candles)).2

/-- `totalVolume = levels.reduce((sum, level) => sum + level.volume, 0)`
(line 95). -/
def totalVolume (candles : List Candle) : ℚ :=
  ((List.range 200).map (levelsFn candles)).foldl (fun s l => s + l.volume) 0

/-- `targetVolume = totalVolume * VALUE_AREA_PERCENT` (line 96). -/
def targetVolume (candles : List Candle) : ℚ := totalVolume candles * (7 / 10)

/-- Initial loop state (lines 98-100): the POC row alone. -/
def vaInit (candles : List Candle) : VAState :=
  ⟨pocIndex candles, pocIndex candles, rowVol candles (pocIndex candles)⟩

/-- Final value-area state of `calculateVRVP`. -/
def vaResult (candles : List Candle) : VAState :=
  vaLoop (rowVol candles) (targetVolume candles) 200 (vaInit candles)

/-- `calculateVRVP` of VRVPCalculator.ts.  The two degenerate early returns
(lines 7-15 and 21-29) are kept verbatim; otherwise the result is assembled
from the level fold, the POC scan, and the value-area loop. -/
def calculateVRVP (candles : List Candle) : VRVPData :=
  match candles with
  | [] => ⟨[], 0, 0, 0, 0⟩
  | _ :: _ =>
    if windowHigh candles - windowLow candles = 0 then
      ⟨[], windowHigh candles, windowHigh candles, windowLow candles, 0⟩
    else
      let low := windowLow candles
      let h := rowHeight candles
      let f := levelsFn candles
      let r := vaResult candles
      ⟨(List.range 200).map f,
        (f (pocIndex candles)).price,
        low + ((r.upper : ℚ) + 1) * h,
        low + (r.lower : ℚ) * h,
        (pocScan (rowVol candles)).1⟩

/-- **C10** (confirmed).  On the empty candle list `calculateVRVP` returns the
well-formed sentinel record: empty levels, `poc = 0`, `valueAreaHigh = 0`,
`valueAreaLow = 0`, `maxVolume = 0` (VRVPCalculator.ts lines 7-15). -/
theorem calculateVRVP_empty : calculateVRVP [] = ⟨[], 0, 0, 0, 0⟩ := rfl

theorem le_foldl_max (l : List ℚ) : ∀ a : ℚ, a ≤ l.foldl max a := by
  induction l with
  | nil => intro a; simp
  | cons h t ih =>
    intro a
    exact le_trans (le_max_left a h) (ih (max a h))

theorem mem_le_foldl_max (l : List ℚ) : ∀ (a x : ℚ), x ∈ l → x ≤ l.foldl max a := by
  induction l with
  | nil => intro a x hx; simp at hx
  | cons h t ih =>
    intro a x hx
    rcases List.mem_cons.mp hx with rfl | hx
    · exact le_trans (le_max_right a x) (le_foldl_max t (max a x))
    · exact ih (max a h) x hx

theorem foldl_min_le (l : List ℚ) : ∀ a : ℚ, l.foldl min a ≤ a := by
  induction l with
  | nil => intro a; simp
  | cons h t ih =>
    intro a
    exact le_trans (ih (min a h)) (min_le_left a h)

theorem foldl_min_le_mem (l : List ℚ) : ∀ (a x : ℚ), x ∈ l → l.foldl min a ≤ x := by
  induction l with
  | nil => intro a x hx; simp at hx
  | cons h t ih =>
    intro a x hx
    rcases List.mem_cons.mp hx with rfl | hx
    · exact le_trans (foldl_min_le t (min a x)) (min_le_right a x)
    · exact ih (min a h) x hx

theorem le_qmax (l : List ℚ) (x : ℚ) (hx : x ∈ l) : x ≤ qmax l := by
  cases l with
  | nil => simp at hx
  | cons h t =>
    rcases List.mem_cons.mp hx with rfl | hx
    · exact le_foldl_max t x
    · exact mem_le_foldl_max t h x hx

theorem qmin_le (l : List ℚ) (x : ℚ) (hx : x ∈ l) : qmin l ≤ x := by
  cases l with
  | nil => simp at hx
  | cons h t =>
    rcases List.mem_cons.mp hx with rfl | hx
    · exact foldl_min_le t x
    · exact foldl_min_le_mem t h x hx

theorem windowLow_le_low (candles : List Candle) (c : Candle) (hc : c ∈ candles) :
    windowLow candles ≤ c.low :=
  qmin_le _ _ (List.mem_map_of_mem Candle.low hc)

theorem high_le_windowHigh (candles : List Candle) (c : Candle) (hc : c ∈ candles) :
    c.high ≤ windowHigh candles :=
  le_qmax _ _ (List.mem_map_of_mem Candle.high hc)

/-- The kernel of the proportional-share distribution: the overlap of
`[a, b]`-row boundaries with the candle body `[lo, hi]` telescopes through the
clamp `x ↦ max lo (min hi x)`. -/
theorem overlap_clamp (lo hi a b : ℚ) (hab : a ≤ b) (hlh : lo ≤ hi) :
    max 0 (min hi b - max lo a)
      = max lo (min hi b) - max lo (min hi a) := by
  simp only [max_def, min_def]
  split_ifs <;> linarith

theorem clamp_mono (lo hi a b : ℚ) (hab : a ≤ b) :
    max lo (min hi a) ≤ max lo (min hi b) :=
  max_le_max le_rfl (min_le_min le_rfl hab)

theorem zeroRangeRow_lt (low h : ℚ) (c : Candle) : zeroRangeRow low h c < 200 := by
  have h1 : (min 199 (max 0 ⌊(c.close - low) / h⌋)) ≤ 199 := min_le_left _ _
  have h2 := Int.toNat_le_toNat h1
  simpa [zeroRangeRow] using lt_of_le_of_lt h2 (by norm_num)

/-- Adding one candle to the level fold adds exactly its volume to the total
over the 200 rows. -/
theorem sum_addCandle (L h : ℚ) (hh : 0 ≤ h) (f : ℕ → PriceLevel) (c : Candle)
    (hlh : c.low ≤ c.high) (hL : L ≤ c.low) (hH : c.high ≤ L + 200 * h) :
    ∑ i ∈ Finset.range 200, (addCandle L h f c i).volume
      = (∑ i ∈ Finset.range 200, (f i).volume) + c.volume := by
  unfold addCandle
  by_cases hz : c.high - c.low = 0
  · simp only [hz, if_true]
    have hmem : zeroRangeRow L h c ∈ Finset.range 200 :=
      Finset.mem_range.mpr (zeroRangeRow_lt L h c)
    have hterm : ∀ i,
        ((if i = zeroRangeRow L h c then
            { f i with
              volume := (f i).volume + c.volume
              buyVolume := if c.«open» ≤ c.close then (f i).buyVolume + c.volume
                else (f i).buyVolume
              sellVolume := if c.«open» ≤ c.close then (f i).sellVolume
                else (f i).sellVolume + c.volume }
          else f i).volume)
          = (f i).volume + (if i = zeroRangeRow L h c then c.volume else 0) := by
      intro i
      by_cases hij : i = zeroRangeRow L h c <;> simp [hij]
    calc ∑ i ∈ Finset.range 200,
          ((if i = zeroRangeRow L h c then
              { f i with
                volume := (f i).volume + c.volume
                buyVolume := if c.«open» ≤ c.close then (f i).buyVolume + c.volume
                  else (f i).buyVolume
                sellVolume := if c.«open» ≤ c.close then (f i).sellVolume
                  else (f i).sellVolume + c.volume }
            else f i).volume)
        = ∑ i ∈ Finset.range 200,
            ((f i).volume + (if i = zeroRangeRow L h c then c.volume else 0)) :=
          Finset.sum_congr rfl (fun i _ => hterm i)
      _ = (∑ i ∈ Finset.range 200, (f i).volume) + c.volume := by
          rw [Finset.sum_add_distrib, Finset.sum_ite_eq' (Finset.range 200)]
          simp [hmem]
  · simp only [hz, if_false]
    have hRpos : c.low ≤ c.high := hlh
    set R := c.high - c.low with hR
    have hterm : ∀ i : ℕ,
        ((if 0 < max 0 (min c.high (L + (i : ℚ) * h + h) - max c.low (L + (i : ℚ) * h)) then
            { f i with
              volume := (f i).volume
                + max 0 (min c.high (L + (i : ℚ) * h + h) - max c.low (L + (i : ℚ) * h)) / R
                  * c.volume
              buyVolume := if c.«open» ≤ c.close then (f i).buyVolume
                + max 0 (min c.high (L + (i : ℚ) * h + h) - max c.low (L + (i : ℚ) * h)) / R
                  * c.volume else (f i).buyVolume
              sellVolume := if c.«open» ≤ c.close then (f i).sellVolume
                else (f i).sellVolume
                + max 0 (min c.high (L + (i : ℚ) * h + h) - max c.low (L + (i : ℚ) * h)) / R
                  * c.volume }
          else f i).volume)
          = (f i).volume
            + (max c.low (min c.high (L + ((i : ℚ) + 1) * h))
                - max c.low (min c.high (L + (i : ℚ) * h))) * (c.volume / R) := by
      intro i
      have hab : L + (i : ℚ) * h ≤ L + (i : ℚ) * h + h := by linarith
      have hov := overlap_clamp c.low c.high (L + (i : ℚ) * h) (L + (i : ℚ) * h + h) hab hlh
      have hco : L + (i : ℚ) * h + h = L + ((i : ℚ) + 1) * h := by ring
      have hd : 0 ≤ max c.low (min c.high (L + ((i : ℚ) + 1) * h))
          - max c.low (min c.high (L + (i : ℚ) * h)) := by
        have := clamp_mono c.low c.high (L + (i : ℚ) * h) (L + ((i : ℚ) + 1) * h) (by linarith)
        linarith
      by_cases hpos :
          0 < max 0 (min c.high (L + (i : ℚ) * h + h) - max c.low (L + (i : ℚ) * h))
      · rw [if_pos hpos]
        simp only [hov]
        simp only [hco]
        rw [div_mul_eq_mul_div, mul_div_assoc]
      · rw [if_neg hpos]
        rw [hov, hco] at hpos
        have : max c.low (min c.high (L + ((i : ℚ) + 1) * h))
            - max c.low (min c.high (L + (i : ℚ) * h)) = 0 := le_antisymm (not_lt.mp hpos) hd
        rw [this]
        ring
    calc ∑ i ∈ Finset.range 200,
          ((if 0 < max 0 (min c.high (L + (i : ℚ) * h + h) - max c.low (L + (i : ℚ) * h)) then
              { f i with
                volume := (f i).volume
                  + max 0 (min c.high (L + (i : ℚ) * h + h) - max c.low (L + (i : ℚ) * h)) / R
                    * c.volume
                buyVolume := if c.«open» ≤ c.close then (f i).buyVolume
                  + max 0 (min c.high (L + (i : ℚ) * h + h) - max c.low (L + (i : ℚ) * h)) / R
                    * c.volume else (f i).buyVolume
                sellVolume := if c.«open» ≤ c.close then (f i).sellVolume
                  else (f i).sellVolume
                  + max 0 (min c.high (L + (i : ℚ) * h + h) - max c.low (L + (i : ℚ) * h)) / R
                    * c.volume }
            else f i).volume)
        = ∑ i ∈ Finset.range 200,
            ((f i).volume
              + (max c.low (min c.high (L + ((i : ℚ) + 1) * h))
                  - max c.low (min c.high (L + (i : ℚ) * h))) * (c.volume / R)) :=
          Finset.sum_congr rfl (fun i _ => hterm i)
      _ = (∑ i ∈ Finset.range 200, (f i).volume) + c.volume := by
          rw [Finset.sum_add_distrib, ← Finset.sum_mul]
          have htel :
              (∑ i ∈ Finset.range 200,
                (max c.low (min c.high (L + ((i : ℚ) + 1) * h))
                  - max c.low (min c.high (L + (i : ℚ) * h))))
                = max c.low (min c.high (L + (200 : ℚ) * h))
                  - max c.low (min c.high (L + (0 : ℚ) * h)) := by
            have := Finset.sum_range_sub
              (fun k : ℕ => max c.low (min c.high (L + (k : ℚ) * h))) 200
            simpa using this
          rw [htel]
          have h200 : max c.low (min c.high (L + (200 : ℚ) * h)) = c.high := by
            rw [min_eq_left hH, max_eq_right hlh]
          have h0 : max c.low (min c.high (L + (0 : ℚ) * h)) = c.low := by
            have : L + (0 : ℚ) * h = L := by ring
            rw [this, min_eq_right (le_trans hL hlh), max_eq_left hL]
          rw [h200, h0, ← hR]
          congr 1
          field_simp

/-- Folding a candle list over any level function adds the candles' total
volume to the rows' total. -/
theorem sum_foldl_addCandle (L h : ℚ) (hh : 0 ≤ h) (cs : List Candle) :
    ∀ f : ℕ → PriceLevel,
    (∀ c ∈ cs, c.low ≤ c.high ∧ L ≤ c.low ∧ c.high ≤ L + 200 * h) →
    ∑ i ∈ Finset.range 200, ((cs.foldl (addCandle L h) f) i).volume
      = (∑ i ∈ Finset.range 200, (f i).volume) + (cs.map Candle.volume).sum := by
  induction cs with
  | nil => intro f _; simp
  | cons c rest ih =>
    intro f hcs
    obtain ⟨h1, h2, h3⟩ := hcs c (List.mem_cons_self c rest)
    have hrest : ∀ x ∈ rest, x.low ≤ x.high ∧ L ≤ x.low ∧ x.high ≤ L + 200 * h :=
      fun x hx => hcs x (List.mem_cons_of_mem c hx)
    simp only [List.foldl_cons, List.map_cons, List.sum_cons]
    rw [ih (addCandle L h f c) hrest, sum_addCandle L h hh f c h1 h2 h3]
    ring

theorem range_map_sum (g : ℕ → ℚ) (n : ℕ) :
    ((List.range n).map g).sum = ∑ i ∈ Finset.range n, g i := by
  induction n with
  | zero => simp
  | succ m ih => rw [List.range_succ, Finset.sum_range_succ, List.map_append, List.sum_append]
                 simp [ih]

theorem windowLow_add_span (candles : List Candle) :
    windowLow candles + 200 * rowHeight candles = windowHigh candles := by
  have h : (200 : ℚ) * ((windowHigh candles - windowLow candles) / 200)
      = windowHigh candles - windowLow candles := by
    rw [mul_div_cancel₀]
    norm_num
  unfold rowHeight
  linarith

/-- **C2** (confirmed).  For a non-empty window of valid candles
(`low ≤ high`) with non-zero price range, `calculateVRVP` returns exactly 200
rows and the rows' volumes sum exactly (over `ℚ`) to the input candles' total
volume; the zero-range-candle branch deposits its full volume in the single
row indexed by its close, which the row-sum accounting covers. -/
theorem vrvp_volume_conservation (candles : List Candle)
    (hne : candles ≠ [])
    (hrange : windowHigh candles - windowLow candles ≠ 0)
    (hvalid : ∀ c ∈ candles, c.low ≤ c.high) :
    (calculateVRVP candles).levels.length = 200 ∧
    ((calculateVRVP candles).levels.map PriceLevel.volume).sum
      = (candles.map Candle.volume).sum := by
  obtain ⟨c0, cs, rfl⟩ : ∃ c0 cs, candles = c0 :: cs := by
    cases candles with
    | nil => exact absurd rfl hne
    | cons a as => exact ⟨a, as, rfl⟩
  have hWL : windowLow (c0 :: cs) ≤ c0.low :=
    windowLow_le_low _ _ (List.mem_cons_self c0 cs)
  have hWH : c0.high ≤ windowHigh (c0 :: cs) :=
    high_le_windowHigh _ _ (List.mem_cons_self c0 cs)
  have hc0 : c0.low ≤ c0.high := hvalid c0 (List.mem_cons_self c0 cs)
  have hLH : windowLow (c0 :: cs) ≤ windowHigh (c0 :: cs) :=
    le_trans hWL (le_trans hc0 hWH)
  have hh : 0 ≤ rowHeight (c0 :: cs) := by
    unfold rowHeight
    apply div_nonneg (by linarith) (by norm_num)
  have hspan := windowLow_add_span (c0 :: cs)
  have hbounds : ∀ c ∈ (c0 :: cs),
      c.low ≤ c.high ∧ windowLow (c0 :: cs) ≤ c.low ∧
        c.high ≤ windowLow (c0 :: cs) + 200 * rowHeight (c0 :: cs) := by
    intro c hc
    refine ⟨hvalid c hc, windowLow_le_low _ _ hc, ?_⟩
    rw [hspan]
    exact high_le_windowHigh _ _ hc
  have hlevels : (calculateVRVP (c0 :: cs)).levels
      = (List.range 200).map (levelsFn (c0 :: cs)) := by
    simp [calculateVRVP, hrange]
  constructor
  · rw [hlevels]
    simp
  · rw [hlevels, List.map_map]
    have : (PriceLevel.volume ∘ levelsFn (c0 :: cs))
        = fun i => (levelsFn (c0 :: cs) i).volume := rfl
    rw [this, range_map_sum]
    unfold levelsFn
    rw [sum_foldl_addCandle _ _ hh (c0 :: cs) _ hbounds]
    simp

/-! ### Value-area loop analysis -/

/-- Span invariant carried by the value-area loop: the span contains the POC
row, stays inside the 200 rows, and the accumulated volume is exactly the
span's row-volume sum. -/
def SpanInv (v : ℕ → ℚ) (P : ℕ) (s : VAState) : Prop :=
  s.lower ≤ P ∧ P ≤ s.upper ∧ s.upper ≤ 199 ∧
    s.vol = ∑ i ∈ Finset.Icc s.lower s.upper, v i

theorem sum_Icc_pred (v : ℕ → ℚ) (l u : ℕ) (hl : 0 < l) (hlu : l ≤ u) :
    ∑ i ∈ Finset.Icc (l - 1) u, v i = v (l - 1) + ∑ i ∈ Finset.Icc l u, v i := by
  have hins : Finset.Icc (l - 1) u = insert (l - 1) (Finset.Icc l u) := by
    ext x
    simp only [Finset.mem_Icc, Finset.mem_insert]
    omega
  rw [hins, Finset.sum_insert]
  simp only [Finset.mem_Icc]
  omega

theorem vaStep_inv (v : ℕ → ℚ) (P : ℕ) (s : VAState)
    (hs : SpanInv v P s) (hgo : s.upper < 199 ∨ 0 < s.lower) :
    SpanInv v P (vaStep v s) := by
  obtain ⟨h1, h2, h3, h4⟩ := hs
  unfold vaStep
  split_ifs with c1 c2 c3
  · refine ⟨h1, le_trans h2 (Nat.le_succ _), c1.2, ?_⟩
    show s.vol + upVol v s = _
    rw [h4, Finset.sum_Icc_succ_top (by omega : s.lower ≤ s.upper + 1),
      upVol, if_pos c1.2]
  · refine ⟨?_, h2, h3, ?_⟩
    · show s.lower - 1 ≤ P
      omega
    show s.vol + loVol v s = _
    rw [h4, sum_Icc_pred v s.lower s.upper c2 (by omega), loVol, if_pos c2]
    ring
  · refine ⟨h1, le_trans h2 (Nat.le_succ _), c3, ?_⟩
    show s.vol + upVol v s = _
    rw [h4, Finset.sum_Icc_succ_top (by omega : s.lower ≤ s.upper + 1),
      upVol, if_pos c3]
  · exact ⟨h1, h2, h3, h4⟩

theorem vaStep_upper_le (v : ℕ → ℚ) (s : VAState) (h : s.upper ≤ 199) :
    (vaStep v s).upper ≤ 199 := by
  unfold vaStep
  split_ifs with c1 c2 c3
  · exact c1.2
  · exact h
  · exact c3
  · exact h

/-- The loop measure: remaining expandable rows. -/
def vaMeasure (s : VAState) : ℕ := (199 - s.upper) + s.lower

theorem vaStep_measure (v : ℕ → ℚ) (s : VAState)
    (hgo : s.upper < 199 ∨ 0 < s.lower) :
    vaMeasure (vaStep v s) + 1 = vaMeasure s := by
  unfold vaStep vaMeasure
  split_ifs with c1 c2 c3
  · have := c1.2
    simp only
    omega
  · simp only
    omega
  · simp only
    omega
  · omega

theorem vaLoop_not_guard (v : ℕ → ℚ) (t : ℚ) (n : ℕ) (s : VAState)
    (h : ¬(s.vol < t ∧ (s.upper < 199 ∨ 0 < s.lower))) :
    vaLoop v t n s = s := by
  cases n with
  | zero => rfl
  | succ m => simp [vaLoop, h]

theorem vaLoop_add (v : ℕ → ℚ) (t : ℚ) (a b : ℕ) :
    ∀ s : VAState, vaLoop v t (a + b) s = vaLoop v t b (vaLoop v t a s) := by
  induction a with
  | zero => intro s; rw [Nat.zero_add]; rfl
  | succ m ih =>
    intro s
    by_cases hg : s.vol < t ∧ (s.upper < 199 ∨ 0 < s.lower)
    · have h1 : vaLoop v t (m + 1) s = vaLoop v t m (vaStep v s) := by
        simp [vaLoop, hg]
      have h2 : vaLoop v t (m + 1 + b) s = vaLoop v t (m + b) (vaStep v s) := by
        have : m + 1 + b = (m + b) + 1 := by omega
        rw [this]
        simp [vaLoop, hg]
      rw [h2, ih, h1]
    · rw [vaLoop_not_guard v t (m + 1) s hg, vaLoop_not_guard v t (m + 1 + b) s hg,
        vaLoop_not_guard v t b s hg]

theorem vaLoop_inv (v : ℕ → ℚ) (t : ℚ) (P : ℕ) :
    ∀ (n : ℕ) (s : VAState), SpanInv v P s → SpanInv v P (vaLoop v t n s) := by
  intro n
  induction n with
  | zero => intro s hs; exact hs
  | succ m ih =>
    intro s hs
    by_cases hg : s.vol < t ∧ (s.upper < 199 ∨ 0 < s.lower)
    · have : vaLoop v t (m + 1) s = vaLoop v t m (vaStep v s) := by simp [vaLoop, hg]
      rw [this]
      exact ih _ (vaStep_inv v P s hs hg.2)
    · rw [vaLoop_not_guard v t (m + 1) s hg]
      exact hs

/-- With fuel exceeding the measure, the loop runs the `while` to completion:
its guard fails at the final state. -/
theorem vaLoop_stops (v : ℕ → ℚ) (t : ℚ) :
    ∀ (fuel : ℕ) (s : VAState), vaMeasure s < fuel → s.upper ≤ 199 →
    ¬((vaLoop v t fuel s).vol < t ∧
      ((vaLoop v t fuel s).upper < 199 ∨ 0 < (vaLoop v t fuel s).lower)) := by
  intro fuel
  induction fuel with
  | zero => intro s hm; omega
  | succ m ih =>
    intro s hm hu
    by_cases hg : s.vol < t ∧ (s.upper < 199 ∨ 0 < s.lower)
    · have hrw : vaLoop v t (m + 1) s = vaLoop v t m (vaStep v s) := by simp [vaLoop, hg]
      rw [hrw]
      have hms := vaStep_measure v s hg.2
      exact ih (vaStep v s) (by omega) (vaStep_upper_le v s hu)
    · rw [vaLoop_not_guard v t (m + 1) s hg]
      exact hg

/-- The POC scan restricted to the first `n` rows (the code uses `n = 200`). -/
def pocScanN (v : ℕ → ℚ) (n : ℕ) : ℚ × ℕ :=
  (List.range n).foldl (fun mp i => if mp.1 < v i then (v i, i) else mp) (0, 0)

theorem pocScan_eq (v : ℕ → ℚ) : pocScan v = pocScanN v 200 := rfl

theorem pocScanN_zero (v : ℕ → ℚ) : pocScanN v 0 = (0, 0) := rfl

theorem pocScanN_succ (v : ℕ → ℚ) (m : ℕ) :
    pocScanN v (m + 1)
      = (if (pocScanN v m).1 < v m then (v m, m) else pocScanN v m) := by
  unfold pocScanN
  rw [List.range_succ, List.foldl_append]
  rfl

attribute [irreducible] pocScan pocScanN

theorem pocScanN_spec (v : ℕ → ℚ) : ∀ n : ℕ,
    0 ≤ (pocScanN v n).1 ∧
    (∀ i < n, v i ≤ (pocScanN v n).1) ∧
    (∀ i < (pocScanN v n).2, v i < (pocScanN v n).1) ∧
    ((pocScanN v n).2 < n ∨ (pocScanN v n).2 = 0) ∧
    ((pocScanN v n).1 = v (pocScanN v n).2 ∨ (pocScanN v n).1 = 0) := by
  intro n
  induction n with
  | zero =>
    rw [pocScanN_zero]
    refine ⟨le_refl 0, ?_, ?_, Or.inr rfl, Or.inr rfl⟩
    · intro i hi; omega
    · intro i hi
      simp at hi
  | succ m ih =>
    obtain ⟨ha, hb, hc, hd, he⟩ := ih
    have hrw := pocScanN_succ v m
    by_cases hup : (pocScanN v m).1 < v m
    · rw [hrw, if_pos hup]
      refine ⟨le_of_lt (lt_of_le_of_lt ha hup), ?_, ?_, Or.inl (by omega), Or.inl rfl⟩
      · intro i hi
        rcases Nat.lt_succ_iff_lt_or_eq.mp hi with hi | rfl
        · exact le_of_lt (lt_of_le_of_lt (hb i hi) hup)
        · exact le_refl _
      · intro i hi
        exact lt_of_le_of_lt (hb i hi) hup
    · rw [hrw, if_neg hup]
      refine ⟨ha, ?_, hc, by omega, he⟩
      intro i hi
      rcases Nat.lt_succ_iff_lt_or_eq.mp hi with hi | rfl
      · exact hb i hi
      · exact not_lt.mp hup

theorem addCandle_volume_mono (L h : ℚ) (f : ℕ → PriceLevel) (c : Candle)
    (hc : 0 ≤ c.volume) (hlh : c.low ≤ c.high) (i : ℕ) :
    (f i).volume ≤ (addCandle L h f c i).volume := by
  unfold addCandle
  by_cases hz : c.high - c.low = 0
  · rw [if_pos hz]
    by_cases hij : i = zeroRangeRow L h c
    · rw [if_pos hij]
      simp only
      linarith
    · rw [if_neg hij]
  · rw [if_neg hz]
    by_cases hov : 0 < max 0 (min c.high (L + (i : ℚ) * h + h) - max c.low (L + (i : ℚ) * h))
    · rw [if_pos hov]
      simp only
      have hR : 0 < c.high - c.low := lt_of_le_of_ne (by linarith) (Ne.symm hz)
      have : 0 ≤ max 0 (min c.high (L + (i : ℚ) * h + h) - max c.low (L + (i : ℚ) * h))
          / (c.high - c.low) * c.volume :=
        mul_nonneg (div_nonneg (le_of_lt hov) (le_of_lt hR)) hc
      linarith
    · rw [if_neg hov]

theorem rowVol_nonneg_aux (L h : ℚ) (cs : List Candle) :
    ∀ f : ℕ → PriceLevel,
    (∀ c ∈ cs, 0 ≤ c.volume ∧ c.low ≤ c.high) →
    ∀ i, 0 ≤ (f i).volume → 0 ≤ ((cs.foldl (addCandle L h) f) i).volume := by
  induction cs with
  | nil => intro f _ i hi; exact hi
  | cons c rest ih =>
    intro f hcs i hi
    obtain ⟨h1, h2⟩ := hcs c (List.mem_cons_self c rest)
    exact ih (addCandle L h f c)
      (fun x hx => hcs x (List.mem_cons_of_mem c hx)) i
      (le_trans hi (addCandle_volume_mono L h f c h1 h2 i))

theorem rowVol_nonneg (candles : List Candle)
    (hvalid : ∀ c ∈ candles, c.low ≤ c.high)
    (hvol : ∀ c ∈ candles, 0 ≤ c.volume) (i : ℕ) :
    0 ≤ rowVol candles i := by
  unfold rowVol levelsFn
  exact rowVol_nonneg_aux _ _ candles _
    (fun c hc => ⟨hvol c hc, hvalid c hc⟩) i (le_refl 0)

theorem foldl_add_map (g : PriceLevel → ℚ) :
    ∀ (l : List PriceLevel) (a : ℚ),
    l.foldl (fun s lev => s + g lev) a = a + (l.map g).sum := by
  intro l
  induction l with
  | nil => intro a; simp
  | cons x xs ih =>
    intro a
    simp only [List.foldl_cons, List.map_cons, List.sum_cons]
    rw [ih]
    ring

theorem totalVolume_eq (candles : List Candle) :
    totalVolume candles = ∑ i ∈ Finset.range 200, rowVol candles i := by
  unfold totalVolume
  rw [foldl_add_map, List.map_map]
  have : (PriceLevel.volume ∘ levelsFn candles) = fun i => rowVol candles i := rfl
  rw [this, range_map_sum]
  ring

attribute [irreducible] totalVolume

theorem pocIndex_eq (candles : List Candle) :
    pocIndex candles = (pocScanN (rowVol candles) 200).2 := by
  unfold pocIndex
  rw [pocScan_eq]

theorem vaInit_upper (candles : List Candle) :
    (vaInit candles).upper = pocIndex candles := rfl

theorem vaInit_lower (candles : List Candle) :
    (vaInit candles).lower = pocIndex candles := rfl

theorem vaInit_vol (candles : List Candle) :
    (vaInit candles).vol = rowVol candles (pocIndex candles) := rfl

theorem vaResult_eq (candles : List Candle) :
    vaResult candles
      = vaLoop (rowVol candles) (targetVolume candles) 200 (vaInit candles) := rfl

theorem pocIndex_le (candles : List Candle) : pocIndex candles ≤ 199 := by
  have := (pocScanN_spec (rowVol candles) 200).2.2.2.1
  unfold pocIndex
  rw [pocScan_eq]
  omega

theorem vaInit_inv (candles : List Candle) :
    SpanInv (rowVol candles) (pocIndex candles) (vaInit candles) := by
  refine ⟨?_, ?_, ?_, ?_⟩
  · rw [vaInit_lower]
  · rw [vaInit_upper]
  · rw [vaInit_upper]
    exact pocIndex_le candles
  · rw [vaInit_vol, vaInit_lower, vaInit_upper, Finset.Icc_self, Finset.sum_singleton]

/-- **C3** (confirmed).  The value area of `calculateVRVP`: the POC row is the
first row of maximum accumulated volume; the greedy loop starts from it,
adds at each step the more voluminous adjacent row (upper preferred on ties,
which is the `>=` in line 106), and stops as soon as the accumulated volume
reaches `70%` of total volume or both boundaries are exhausted; the final
span contains the POC, its accumulated volume is exactly its rows' sum and is
`≥ 70%` of total volume, every strictly earlier greedy span misses the
target (minimality along the greedy chain), and the emitted
`valueAreaLow`/`valueAreaHigh` are the row boundaries of that span. -/
theorem vrvp_value_area_greedy (candles : List Candle)
    (hne : candles ≠ [])
    (hrange : windowHigh candles - windowLow candles ≠ 0)
    (hvalid : ∀ c ∈ candles, c.low ≤ c.high)
    (hvol : ∀ c ∈ candles, 0 ≤ c.volume) :
    (∀ i, i < 200 → rowVol candles i ≤ rowVol candles (pocIndex candles)) ∧
    (∀ i, i < pocIndex candles →
      rowVol candles i < rowVol candles (pocIndex candles)) ∧
    (vaResult candles).lower ≤ pocIndex candles ∧
    pocIndex candles ≤ (vaResult candles).upper ∧
    (vaResult candles).upper ≤ 199 ∧
    (vaResult candles).vol
      = ∑ i ∈ Finset.Icc (vaResult candles).lower (vaResult candles).upper,
          rowVol candles i ∧
    targetVolume candles ≤ (vaResult candles).vol ∧
    (∀ j, vaLoop (rowVol candles) (targetVolume candles) j (vaInit candles)
        ≠ vaResult candles →
      (vaLoop (rowVol candles) (targetVolume candles) j (vaInit candles)).vol
        < targetVolume candles) ∧
    (calculateVRVP candles).valueAreaLow
      = windowLow candles + ((vaResult candles).lower : ℚ) * rowHeight candles ∧
    (calculateVRVP candles).valueAreaHigh
      = windowLow candles + (((vaResult candles).upper : ℚ) + 1) * rowHeight candles := by
  have hv : ∀ i, 0 ≤ rowVol candles i := rowVol_nonneg candles hvalid hvol
  obtain ⟨ha, hb, hc, hd, he⟩ := pocScanN_spec (rowVol candles) 200
  have hpi := pocIndex_eq candles
  have hmax : ∀ i, i < 200 → rowVol candles i ≤ rowVol candles (pocIndex candles) := by
    intro i hi
    rw [hpi]
    rcases he with he | he
    · rw [← he]
      exact hb i hi
    · exact le_trans (he ▸ hb i hi) (hv _)
  have hfirst : ∀ i, i < pocIndex candles →
      rowVol candles i < rowVol candles (pocIndex candles) := by
    intro i hi
    rw [hpi] at hi ⊢
    rcases he with he | he
    · rw [← he]
      exact hc i hi
    · exact absurd (lt_of_le_of_lt (hv i) (he ▸ hc i hi)) (lt_irrefl 0)
  have hinv := vaLoop_inv (rowVol candles) (targetVolume candles) (pocIndex candles)
    200 (vaInit candles) (vaInit_inv candles)
  have hstop := vaLoop_stops (rowVol candles) (targetVolume candles) 200 (vaInit candles)
    (by
      unfold vaMeasure
      rw [vaInit_lower, vaInit_upper]
      have := pocIndex_le candles
      omega)
    (by rw [vaInit_upper]; exact pocIndex_le candles)
  rw [← vaResult_eq candles] at hstop hinv
  obtain ⟨i1, i2, i3, i4⟩ := hinv
  have htot_nonneg : 0 ≤ totalVolume candles := by
    rw [totalVolume_eq]
    exact Finset.sum_nonneg fun i _ => hv i
  have hseventy : targetVolume candles ≤ (vaResult candles).vol := by
    rcases not_and_or.mp hstop with hcase | hcase
    · exact le_of_not_lt hcase
    · push_neg at hcase
      obtain ⟨hu, hl⟩ := hcase
      have hu199 : (vaResult candles).upper = 199 := le_antisymm i3 hu
      have hl0 : (vaResult candles).lower = 0 := by omega
      have hIcc : Finset.Icc 0 199 = Finset.range 200 := by
        rw [Finset.range_eq_Ico, ← Nat.Ico_succ_right]
      have : (vaResult candles).vol = totalVolume candles := by
        rw [i4, hu199, hl0, totalVolume_eq, ← hIcc]
      rw [this]
      unfold targetVolume
      nlinarith [htot_nonneg]
  refine ⟨hmax, hfirst, i1, i2, i3, i4, hseventy, ?_, ?_, ?_⟩
  · intro j hj
    by_cases hj200 : j ≤ 200
    · by_contra hcon
      push_neg at hcon
      have hfix : vaLoop (rowVol candles) (targetVolume candles) (200 - j)
          (vaLoop (rowVol candles) (targetVolume candles) j (vaInit candles))
          = vaLoop (rowVol candles) (targetVolume candles) j (vaInit candles) := by
        apply vaLoop_not_guard
        intro hcontra
        exact absurd hcontra.1 (not_lt.mpr hcon)
      have hsplit : vaResult candles
          = vaLoop (rowVol candles) (targetVolume candles) j (vaInit candles) := by
        unfold vaResult
        have : (200 : ℕ) = j + (200 - j) := by omega
        rw [this, vaLoop_add, hfix]
      exact hj hsplit.symm
    · exfalso
      apply hj
      have hsplit : vaLoop (rowVol candles) (targetVolume candles) j (vaInit candles)
          = vaLoop (rowVol candles) (targetVolume candles) (j - 200) (vaResult candles) := by
        have h1 := vaLoop_add (rowVol candles) (targetVolume candles) 200 (j - 200)
          (vaInit candles)
        have h2 : 200 + (j - 200) = j := by omega
        rw [h2, ← vaResult_eq candles] at h1
        exact h1
      rw [hsplit]
      exact vaLoop_not_guard _ _ _ _ hstop
  · obtain ⟨c0, cs, rfl⟩ : ∃ c0 cs, candles = c0 :: cs := by
      cases candles with
      | nil => exact absurd rfl hne
      | cons a as => exact ⟨a, as, rfl⟩
    simp [calculateVRVP, hrange]
  · obtain ⟨c0, cs, rfl⟩ : ∃ c0 cs, candles = c0 :: cs := by
      cases candles with
      | nil => exact absurd rfl hne
      | cons a as => exact ⟨a, as, rfl⟩
    simp [calculateVRVP, hrange]

/-- A small concrete window: one regular candle and one zero-range candle. -/
def vrvpExample : List Candle := [⟨0, 1, 3, 1, 2, 10⟩, ⟨1, 2, 2, 2, 2, 5⟩]

/-- Witness for `vrvp_volume_conservation` at `vrvpExample`. -/
theorem vrvp_volume_conservation_witness :
    (calculateVRVP vrvpExample).levels.length = 200 ∧
    ((calculateVRVP vrvpExample).levels.map PriceLevel.volume).sum
      = (vrvpExample.map Candle.volume).sum :=
  vrvp_volume_conservation vrvpExample (by simp [vrvpExample])
    (by norm_num [windowHigh, windowLow, qmax, qmin, vrvpExample])
    (by intro c hc; simp [vrvpExample] at hc; rcases hc with rfl | rfl <;> norm_num)

/-- Witness for `vrvp_value_area_greedy` at `vrvpExample`: the value-area
volume reaches the 70 % target there. -/
theorem vrvp_value_area_greedy_witness :
    targetVolume vrvpExample ≤ (vaResult vrvpExample).vol :=
  (vrvp_value_area_greedy vrvpExample (by simp [vrvpExample])
    (by norm_num [windowHigh, windowLow, qmax, qmin, vrvpExample])
    (by intro c hc; simp [vrvpExample] at hc; rcases hc with rfl | rfl <;> norm_num)
    (by intro c hc; simp [vrvpExample] at hc;
        rcases hc with rfl | rfl <;> norm_num)).2.2.2.2.2.2.1

/-! ## Candle aggregation (`aggregateCandles`, cryptoCompareApi.ts lines 59-79
and the identical copy in the Binance adapter lines 81-99) -/

/-- The loop body of `aggregateCandles` applied to one non-empty chunk
`c :: rest`: `time`/`open` from the first bar, `high`/`low` by `Math.max` /
`Math.min` over the chunk, `close` from the last bar, `volume` by `reduce`. -/
def aggBar (c : Candle) (rest : List Candle) : Candle :=
  ⟨c.time, c.«open»,
    qmax ((c :: rest).map Candle.high),
    qmin ((c :: rest).map Candle.low),
    ((c :: rest).getLast (List.cons_ne_nil c rest)).close,
    (c :: rest).foldl (fun s x => s + x.volume) 0⟩

/-- `aggBar` lifted to a possibly-empty chunk (`none` on the empty chunk the
loop never produces). -/
def aggOne : List Candle → Option Candle
  | [] => none
  | c :: rest => some (aggBar c rest)

/-- The `for (i = 0; i < length; i += period)` chunking loop of
`aggregateCandles`: emit one bar per `period`-sized slice, the trailing
partial slice included.  (The JS loop does not terminate for `period = 0`;
this embedding is only used with `period ≥ 1`.) -/
def chunkAgg (p : ℕ) : List Candle → List Candle
  | [] => []
  | c :: rest => aggBar c (rest.take (p - 1)) :: chunkAgg p (rest.drop (p - 1))
termination_by l => l.length
decreasing_by
  simp only [List.length_drop, List.length_cons]
  omega

/-- `aggregateCandles` of cryptoCompareApi.ts: `period <= 1` returns the
input unchanged (line 60), otherwise the chunking loop runs. -/
def aggregateCandles (candles : List Candle) (period : ℕ) : List Candle :=
  if period ≤ 1 then candles else chunkAgg period candles

/-- `aggregateCandles` of the Binance adapter (src/unnamed/part_000 lines
81-99): the same loop without the `period <= 1` early return. -/
def aggregateCandlesBinance (candles : List Candle) (period : ℕ) : List Candle :=
  chunkAgg period candles

theorem chunkAgg_nil (p : ℕ) : chunkAgg p [] = [] := by
  rw [chunkAgg]

theorem chunkAgg_cons (p : ℕ) (c : Candle) (rest : List Candle) :
    chunkAgg p (c :: rest)
      = aggBar c (rest.take (p - 1)) :: chunkAgg p (rest.drop (p - 1)) := by
  rw [chunkAgg]

theorem aggBar_singleton (c : Candle) : aggBar c [] = c := by
  cases c
  simp [aggBar, qmax, qmin]

theorem chunkAgg_one : ∀ (n : ℕ) (l : List Candle), l.length ≤ n →
    chunkAgg 1 l = l := by
  intro n
  induction n with
  | zero =>
    intro l hl
    have hnil : l = [] := by
      cases l with
      | nil => rfl
      | cons a as => simp at hl
    subst hnil
    exact chunkAgg_nil 1
  | succ m ih =>
    intro l hl
    cases l with
    | nil => exact chunkAgg_nil 1
    | cons c rest =>
      rw [chunkAgg_cons]
      simp only [Nat.sub_self, List.take_zero, List.drop_zero]
      rw [aggBar_singleton, ih rest (by simp only [List.length_cons] at hl; omega)]

theorem chunkAgg_length (p : ℕ) (hp : 1 ≤ p) : ∀ (n : ℕ) (l : List Candle),
    l.length ≤ n → (chunkAgg p l).length = (l.length + p - 1) / p := by
  intro n
  induction n with
  | zero =>
    intro l hl
    have hnil : l = [] := by
      cases l with
      | nil => rfl
      | cons a as => simp at hl
    subst hnil
    rw [chunkAgg_nil]
    simp only [List.length_nil]
    rw [Nat.div_eq_of_lt (by omega)]
  | succ m ih =>
    intro l hl
    cases l with
    | nil =>
      rw [chunkAgg_nil]
      simp only [List.length_nil]
      rw [Nat.div_eq_of_lt (by omega)]
    | cons c rest =>
      rw [chunkAgg_cons]
      simp only [List.length_cons]
      rw [ih (rest.drop (p - 1))
        (by simp only [List.length_cons] at hl; simp only [List.length_drop]; omega)]
      simp only [List.length_drop]
      rcases Nat.lt_or_ge rest.length (p - 1) with hlt | hge
      · have h1 : rest.length - (p - 1) = 0 := by omega
        rw [h1]
        have h2 : (0 + p - 1) / p = 0 := Nat.div_eq_of_lt (by omega)
        rw [h2]
        have h3 : rest.length + 1 + p - 1 = rest.length + p := by omega
        rw [h3]
        have h4 : (rest.length + p) / p = rest.length / p + 1 := Nat.add_div_right _ (by omega)
        rw [h4, Nat.div_eq_of_lt (by omega)]
      · have h1 : rest.length - (p - 1) + p - 1 = rest.length := by omega
        rw [h1]
        have h3 : rest.length + 1 + p - 1 = rest.length + p := by omega
        rw [h3]
        rw [Nat.add_div_right _ (by omega)]

theorem chunkAgg_get (p : ℕ) (hp : 1 ≤ p) : ∀ (j : ℕ) (l : List Candle),
    (chunkAgg p l).get? j = aggOne ((l.drop (p * j)).take p) := by
  intro j
  induction j with
  | zero =>
    intro l
    cases l with
    | nil => rw [chunkAgg_nil]; simp [aggOne]
    | cons c rest =>
      rw [chunkAgg_cons]
      simp only [Nat.mul_zero, List.drop_zero]
      have htake : (c :: rest).take p = c :: rest.take (p - 1) := by
        obtain ⟨q, rfl⟩ : ∃ q, p = q + 1 := ⟨p - 1, by omega⟩
        simp
      rw [htake]
      rfl
  | succ j ih =>
    intro l
    cases l with
    | nil =>
      rw [chunkAgg_nil]
      simp [aggOne]
    | cons c rest =>
      rw [chunkAgg_cons]
      have h1 : (chunkAgg p (rest.drop (p - 1))).get? j
          = aggOne (((rest.drop (p - 1)).drop (p * j)).take p) := ih _
      have h2 : (aggBar c (rest.take (p - 1)) :: chunkAgg p (rest.drop (p - 1))).get? (j + 1)
          = (chunkAgg p (rest.drop (p - 1))).get? j := rfl
      rw [h2, h1, List.drop_drop]
      have h3 : (c :: rest).drop (p * (j + 1)) = rest.drop (p * j + (p - 1)) := by
        have : p * (j + 1) = (p * j + (p - 1)) + 1 := by
          have hmul : p * (j + 1) = p * j + p := by ring
          omega
        rw [this]
        rfl
      rw [h3, Nat.add_comm (p * j) (p - 1)]

theorem getLast?_cons_of_ne_nil (a : Candle) (l : List Candle) (h : l ≠ []) :
    (a :: l).getLast? = l.getLast? := by
  have hal : a :: l = [a] ++ l := rfl
  rw [hal, List.getLast?_append, List.getLast?_eq_getLast l h]
  rfl

theorem getLast?_drop_of_ne_nil (l : List Candle) (k : ℕ) (h : l.drop k ≠ []) :
    (l.drop k).getLast? = l.getLast? := by
  conv_rhs => rw [← List.take_append_drop k l]
  rw [List.getLast?_append, List.getLast?_eq_getLast _ h]
  rfl

theorem chunkAgg_last_close (p : ℕ) (hp : 1 ≤ p) : ∀ (n : ℕ) (l : List Candle),
    l.length ≤ n →
    ((chunkAgg p l).getLast?).map Candle.close = (l.getLast?).map Candle.close := by
  intro n
  induction n with
  | zero =>
    intro l hl
    have hnil : l = [] := by
      cases l with
      | nil => rfl
      | cons a as => simp at hl
    subst hnil
    rw [chunkAgg_nil]
  | succ m ih =>
    intro l hl
    cases l with
    | nil => rw [chunkAgg_nil]
    | cons c rest =>
      rw [chunkAgg_cons]
      by_cases hdrop : rest.drop (p - 1) = []
      · rw [hdrop, chunkAgg_nil]
        have htake : rest.take (p - 1) = rest :=
          List.take_of_length_le (by
            have := List.length_drop (p - 1) rest
            rw [hdrop] at this
            simp at this
            omega)
        rw [htake]
        simp only [List.getLast?_singleton, Option.map_some]
        rw [List.getLast?_eq_getLast (c :: rest) (List.cons_ne_nil c rest)]
        rfl
      · have htail : chunkAgg p (rest.drop (p - 1)) ≠ [] := by
          intro hcon
          have := chunkAgg_length p hp (rest.drop (p - 1)).length (rest.drop (p - 1)) le_rfl
          rw [hcon] at this
          simp only [List.length_nil] at this
          have hpos : 0 < (rest.drop (p - 1)).length := List.length_pos.mpr hdrop
          have : ((rest.drop (p - 1)).length + p - 1) / p ≥ 1 := by
            apply Nat.le_div_iff_mul_le (by omega) |>.mpr
            omega
          omega
        rw [getLast?_cons_of_ne_nil _ _ htail]
        rw [ih (rest.drop (p - 1)) (by
          simp only [List.length_cons] at hl
          simp only [List.length_drop]
          omega)]
        have hrest : rest ≠ [] := by
          intro hcon
          rw [hcon] at hdrop
          simp at hdrop
        rw [getLast?_drop_of_ne_nil rest (p - 1) hdrop,
          getLast?_cons_of_ne_nil c rest hrest]

theorem foldl_max_comm (t : List ℚ) : ∀ a b : ℚ,
    max a (t.foldl max b) = t.foldl max (max a b) := by
  induction t with
  | nil => intro a b; rfl
  | cons x xs ih =>
    intro a b
    simp only [List.foldl_cons]
    rw [ih, max_assoc]

theorem foldl_min_comm (t : List ℚ) : ∀ a b : ℚ,
    min a (t.foldl min b) = t.foldl min (min a b) := by
  induction t with
  | nil => intro a b; rfl
  | cons x xs ih =>
    intro a b
    simp only [List.foldl_cons]
    rw [ih, min_assoc]

theorem chunkAgg_foldl_max (p : ℕ) (hp : 1 ≤ p) : ∀ (n : ℕ) (l : List Candle) (a : ℚ),
    l.length ≤ n →
    ((chunkAgg p l).map Candle.high).foldl max a = (l.map Candle.high).foldl max a := by
  intro n
  induction n with
  | zero =>
    intro l a hl
    have hnil : l = [] := by
      cases l with
      | nil => rfl
      | cons x xs => simp at hl
    subst hnil
    rw [chunkAgg_nil]
  | succ m ih =>
    intro l a hl
    cases l with
    | nil => rw [chunkAgg_nil]
    | cons c rest =>
      rw [chunkAgg_cons]
      simp only [List.map_cons, List.foldl_cons]
      rw [ih (rest.drop (p - 1)) _ (by
        simp only [List.length_cons] at hl
        simp only [List.length_drop]
        omega)]
      have hbar : (aggBar c (rest.take (p - 1))).high
          = (rest.take (p - 1) |>.map Candle.high).foldl max c.high := by
        simp [aggBar, qmax]
      rw [hbar, foldl_max_comm, ← List.foldl_append, ← List.map_append,
        List.take_append_drop]

theorem chunkAgg_foldl_min (p : ℕ) (hp : 1 ≤ p) : ∀ (n : ℕ) (l : List Candle) (a : ℚ),
    l.length ≤ n →
    ((chunkAgg p l).map Candle.low).foldl min a = (l.map Candle.low).foldl min a := by
  intro n
  induction n with
  | zero =>
    intro l a hl
    have hnil : l = [] := by
      cases l with
      | nil => rfl
      | cons x xs => simp at hl
    subst hnil
    rw [chunkAgg_nil]
  | succ m ih =>
    intro l a hl
    cases l with
    | nil => rw [chunkAgg_nil]
    | cons c rest =>
      rw [chunkAgg_cons]
      simp only [List.map_cons, List.foldl_cons]
      rw [ih (rest.drop (p - 1)) _ (by
        simp only [List.length_cons] at hl
        simp only [List.length_drop]
        omega)]
      have hbar : (aggBar c (rest.take (p - 1))).low
          = (rest.take (p - 1) |>.map Candle.low).foldl min c.low := by
        simp [aggBar, qmin]
      rw [hbar, foldl_min_comm, ← List.foldl_append, ← List.map_append,
        List.take_append_drop]

theorem chunkAgg_qmax (p : ℕ) (hp : 1 ≤ p) (l : List Candle) (hne : l ≠ []) :
    qmax ((chunkAgg p l).map Candle.high) = qmax (l.map Candle.high) := by
  cases l with
  | nil => exact absurd rfl hne
  | cons c rest =>
    rw [chunkAgg_cons]
    simp only [List.map_cons, qmax]
    have hbar : (aggBar c (rest.take (p - 1))).high
        = (rest.take (p - 1) |>.map Candle.high).foldl max c.high := by
      simp [aggBar, qmax]
    rw [chunkAgg_foldl_max p hp (rest.drop (p - 1)).length _ _ le_rfl, hbar,
      ← List.foldl_append, ← List.map_append, List.take_append_drop]

theorem chunkAgg_qmin (p : ℕ) (hp : 1 ≤ p) (l : List Candle) (hne : l ≠ []) :
    qmin ((chunkAgg p l).map Candle.low) = qmin (l.map Candle.low) := by
  cases l with
  | nil => exact absurd rfl hne
  | cons c rest =>
    rw [chunkAgg_cons]
    simp only [List.map_cons, qmin]
    have hbar : (aggBar c (rest.take (p - 1))).low
        = (rest.take (p - 1) |>.map Candle.low).foldl min c.low := by
      simp [aggBar, qmin]
    rw [chunkAgg_foldl_min p hp (rest.drop (p - 1)).length _ _ le_rfl, hbar,
      ← List.foldl_append, ← List.map_append, List.take_append_drop]

theorem aggregateCandlesBinance_agrees (candles : List Candle) (p : ℕ) (hp : 1 ≤ p) :
    aggregateCandlesBinance candles p = aggregateCandles candles p := by
  unfold aggregateCandles aggregateCandlesBinance
  by_cases h : p ≤ 1
  · rw [if_pos h]
    have hp1 : p = 1 := by omega
    subst hp1
    exact chunkAgg_one candles.length candles le_rfl
  · rw [if_neg h]

/-- **C5** (confirmed).  For `n ≥ 1` candles and period `p ≥ 1`,
`aggregateCandles` emits exactly `⌈n/p⌉ = (n+p-1)/p` bars; bar `j` is built
from the positional chunk `(candles.drop (p*j)).take p` via the loop body
(`time`/`open` from the chunk's first bar, `close` from its last, `high`/`low`
the chunk max/min, `volume` the chunk sum — including the trailing partial
chunk); consequently the last output close equals the input's last close and
the output's overall high/low equal the window max/min; and the Binance
adapter's guard-free copy agrees for every `p ≥ 1`. -/
theorem aggregateCandles_spec (candles : List Candle) (p : ℕ)
    (hp : 1 ≤ p) (hne : candles ≠ []) :
    (aggregateCandles candles p).length = (candles.length + p - 1) / p ∧
    (∀ j : ℕ, (aggregateCandles candles p).get? j
        = aggOne ((candles.drop (p * j)).take p)) ∧
    ((aggregateCandles candles p).getLast?).map Candle.close
        = (candles.getLast?).map Candle.close ∧
    qmax ((aggregateCandles candles p).map Candle.high)
        = qmax (candles.map Candle.high) ∧
    qmin ((aggregateCandles candles p).map Candle.low)
        = qmin (candles.map Candle.low) ∧
    aggregateCandlesBinance candles p = aggregateCandles candles p := by
  have hkey : aggregateCandles candles p = chunkAgg p candles := by
    unfold aggregateCandles
    by_cases h : p ≤ 1
    · rw [if_pos h]
      have hp1 : p = 1 := by omega
      subst hp1
      exact (chunkAgg_one candles.length candles le_rfl).symm
    · rw [if_neg h]
  rw [hkey]
  refine ⟨chunkAgg_length p hp candles.length candles le_rfl,
    fun j => chunkAgg_get p hp j candles,
    chunkAgg_last_close p hp candles.length candles le_rfl,
    chunkAgg_qmax p hp candles hne,
    chunkAgg_qmin p hp candles hne,
    (aggregateCandlesBinance_agrees candles p hp).trans hkey⟩

/-- Three candles, so period 2 exercises the trailing partial chunk. -/
def aggExample : List Candle :=
  [⟨0, 1, 2, 0, 1, 3⟩, ⟨1, 1, 5, 1, 4, 4⟩, ⟨2, 4, 6, 2, 5, 5⟩]

/-- Witness for `aggregateCandles_spec` at `aggExample` with period 2. -/
theorem aggregateCandles_spec_witness :
    (aggregateCandles aggExample 2).length = (aggExample.length + 2 - 1) / 2 ∧
    ((aggregateCandles aggExample 2).getLast?).map Candle.close
      = (aggExample.getLast?).map Candle.close :=
  ⟨(aggregateCandles_spec aggExample 2 (by norm_num) (by simp [aggExample])).1,
   (aggregateCandles_spec aggExample 2 (by norm_num) (by simp [aggExample])).2.2.1⟩

/-! ## Deduplicate-and-sort (`processCandles`, cryptoCompareApi.ts
lines 110-138) -/

/-- `CryptoCompareCandle` of cryptoCompareApi.ts. -/
structure CryptoCompareCandle where
  time : ℤ
  «open» : ℚ
  high : ℚ
  low : ℚ
  close : ℚ
  volumefrom : ℚ
  volumeto : ℚ
  deriving Repr, DecidableEq

/-- The `filter` with a `seen` set (lines 112-117), the set modelled as the
list of times already encountered. -/
def dedupByTime (seen : List ℤ) : List CryptoCompareCandle → List CryptoCompareCandle
  | [] => []
  | c :: rest =>
    if c.time ∈ seen then dedupByTime seen rest
    else c :: dedupByTime (c.time :: seen) rest

/-- The `seen` set after scanning a batch (every scanned time is added). -/
def seenAfter (seen : List ℤ) : List CryptoCompareCandle → List ℤ
  | [] => seen
  | c :: rest =>
    if c.time ∈ seen then seenAfter seen rest
    else seenAfter (c.time :: seen) rest

/-- `uniqueCandles.sort((a, b) => a.time - b.time)` (line 120). -/
def sortByTime (l : List CryptoCompareCandle) : List CryptoCompareCandle :=
  l.mergeSort fun a b => decide (a.time ≤ b.time)

/-- The `CandleData` conversion (lines 123-130): `volume := volumefrom`. -/
def toCandle (c : CryptoCompareCandle) : Candle :=
  ⟨c.time, c.«open», c.high, c.low, c.close, c.volumefrom⟩

/-- `processCandles` of cryptoCompareApi.ts: dedup, sort ascending by time,
convert, then optionally aggregate (`aggregate && aggregate > 1`). -/
def processCandles (rawCandles : List CryptoCompareCandle) (aggregate : Option ℕ) :
    List Candle :=
  let uniqueCandles := dedupByTime [] rawCandles
  let sorted := sortByTime uniqueCandles
  let candles := sorted.map toCandle
  match aggregate with
  | some a => if 1 < a then aggregateCandles candles a else candles
  | none => candles

theorem dedupByTime_times (l : List CryptoCompareCandle) : ∀ seen : List ℤ,
    ((dedupByTime seen l).map CryptoCompareCandle.time).Nodup ∧
    ∀ t ∈ (dedupByTime seen l).map CryptoCompareCandle.time, t ∉ seen := by
  induction l with
  | nil => intro seen; constructor <;> simp [dedupByTime]
  | cons c rest ih =>
    intro seen
    unfold dedupByTime
    by_cases hc : c.time ∈ seen
    · rw [if_pos hc]
      exact ih seen
    · rw [if_neg hc]
      obtain ⟨hnd, hns⟩ := ih (c.time :: seen)
      refine ⟨?_, ?_⟩
      · simp only [List.map_cons, List.nodup_cons]
        refine ⟨fun hmem => ?_, hnd⟩
        exact hns c.time hmem (List.mem_cons_self _ _)
      · intro t ht
        simp only [List.map_cons, List.mem_cons] at ht
        rcases ht with rfl | ht
        · exact hc
        · intro hts
          exact hns t ht (List.mem_cons_of_mem _ hts)

theorem dedupByTime_find? (l : List CryptoCompareCandle) : ∀ (seen : List ℤ)
    (q : CryptoCompareCandle), q ∈ dedupByTime seen l →
    l.find? (fun x => x.time == q.time) = some q := by
  induction l with
  | nil => intro seen q hq; simp [dedupByTime] at hq
  | cons c rest ih =>
    intro seen q hq
    unfold dedupByTime at hq
    by_cases hc : c.time ∈ seen
    · rw [if_pos hc] at hq
      have hqs : q.time ∉ seen :=
        (dedupByTime_times rest seen).2 q.time
          (List.mem_map_of_mem CryptoCompareCandle.time hq)
      have hne : c.time ≠ q.time := fun h => hqs (h ▸ hc)
      rw [List.find?_cons_of_neg _ (by simpa using hne)]
      exact ih seen q hq
    · rw [if_neg hc] at hq
      rcases List.mem_cons.mp hq with rfl | hq
      · rw [List.find?_cons_of_pos _ (by simp)]
      · have hqs : q.time ∉ c.time :: seen :=
          (dedupByTime_times rest (c.time :: seen)).2 q.time
            (List.mem_map_of_mem CryptoCompareCandle.time hq)
        have hne : c.time ≠ q.time := by
          intro h
          exact hqs (h ▸ List.mem_cons_self _ _)
        rw [List.find?_cons_of_neg _ (by simpa using hne)]
        exact ih (c.time :: seen) q hq

theorem dedupByTime_eq_filter (l : List CryptoCompareCandle)
    (hl : (l.map CryptoCompareCandle.time).Nodup) : ∀ seen : List ℤ,
    dedupByTime seen l = l.filter fun c => decide (c.time ∉ seen) := by
  induction l with
  | nil => intro seen; rfl
  | cons c rest ih =>
    intro seen
    simp only [List.map_cons, List.nodup_cons] at hl
    obtain ⟨hct, hrest⟩ := hl
    unfold dedupByTime
    by_cases hc : c.time ∈ seen
    · rw [if_pos hc, ih hrest seen]
      have : (fun x : CryptoCompareCandle => decide (x.time ∉ seen)) c = false := by
        simpa using hc
      rw [List.filter_cons_of_neg (by simpa using hc)]
    · rw [if_neg hc, ih hrest (c.time :: seen),
        List.filter_cons_of_pos (by simpa using hc)]
      congr 1
      apply List.filter_congr
      intro x hx
      have hxc : x.time ≠ c.time := by
        intro h
        exact hct (h ▸ List.mem_map_of_mem CryptoCompareCandle.time hx)
      simp only [decide_eq_decide, List.mem_cons]
      tauto

theorem dedupByTime_cons (seen : List ℤ) (c : CryptoCompareCandle)
    (rest : List CryptoCompareCandle) :
    dedupByTime seen (c :: rest)
      = if c.time ∈ seen then dedupByTime seen rest
        else c :: dedupByTime (c.time :: seen) rest := rfl

theorem seenAfter_cons (seen : List ℤ) (c : CryptoCompareCandle)
    (rest : List CryptoCompareCandle) :
    seenAfter seen (c :: rest)
      = if c.time ∈ seen then seenAfter seen rest
        else seenAfter (c.time :: seen) rest := rfl

theorem dedupByTime_append (a b : List CryptoCompareCandle) : ∀ seen : List ℤ,
    dedupByTime seen (a ++ b)
      = dedupByTime seen a ++ dedupByTime (seenAfter seen a) b := by
  induction a with
  | nil => intro seen; rfl
  | cons c rest ih =>
    intro seen
    rw [List.cons_append, dedupByTime_cons, dedupByTime_cons, seenAfter_cons]
    by_cases hc : c.time ∈ seen
    · rw [if_pos hc, if_pos hc, if_pos hc]
      exact ih seen
    · rw [if_neg hc, if_neg hc, if_neg hc, List.cons_append, ih (c.time :: seen)]

theorem mem_seenAfter (a : List CryptoCompareCandle) : ∀ (seen : List ℤ) (t : ℤ),
    t ∈ seenAfter seen a ↔ t ∈ seen ∨ t ∈ a.map CryptoCompareCandle.time := by
  induction a with
  | nil => intro seen t; simp [seenAfter]
  | cons c rest ih =>
    intro seen t
    unfold seenAfter
    by_cases hc : c.time ∈ seen
    · rw [if_pos hc, ih]
      simp only [List.map_cons, List.mem_cons]
      constructor
      · rintro (h | h)
        · exact Or.inl h
        · exact Or.inr (Or.inr h)
      · rintro (h | rfl | h)
        · exact Or.inl h
        · exact Or.inl hc
        · exact Or.inr h
    · rw [if_neg hc, ih]
      simp only [List.mem_cons, List.map_cons]
      tauto

theorem length_filter_compl {α : Type} (p : α → Bool) (l : List α) :
    (l.filter p).length + (l.filter fun x => !(p x)).length = l.length := by
  induction l with
  | nil => rfl
  | cons x xs ih =>
    by_cases hx : p x
    · rw [List.filter_cons_of_pos hx, List.filter_cons_of_neg (by simp [hx])]
      simp only [List.length_cons]
      omega
    · rw [List.filter_cons_of_neg (by simpa using hx),
        List.filter_cons_of_pos (by simpa using hx)]
      simp only [List.length_cons]
      omega

theorem sortByTime_sorted (l : List CryptoCompareCandle) :
    List.Pairwise (fun x y : CryptoCompareCandle => x.time ≤ y.time) (sortByTime l) := by
  have h := @List.sorted_mergeSort CryptoCompareCandle
    (fun a b : CryptoCompareCandle => decide (a.time ≤ b.time))
    (fun a b c hab hbc => by
      simp only [decide_eq_true_eq] at hab hbc ⊢
      omega)
    (fun a b => by
      simp only [Bool.or_eq_true, decide_eq_true_eq]
      omega)
    l
  exact h.imp fun hab => by simpa using hab

/-- **C6** (confirmed).  Merging two internally duplicate-free batches `a`
and `b` sharing `k` timestamps through `processCandles` (no aggregation)
yields `len a + len b - k` candles, strictly ascending in time (hence
duplicate-free), and for every output candle the raw candle kept is the first
occurrence of its timestamp in the concatenated input. -/
theorem processCandles_merge_spec (a b : List CryptoCompareCandle)
    (ha : (a.map CryptoCompareCandle.time).Nodup)
    (hb : (b.map CryptoCompareCandle.time).Nodup) :
    (processCandles (a ++ b) none).length
      = a.length + b.length
        - (b.filter fun c => decide (c.time ∈ a.map CryptoCompareCandle.time)).length ∧
    List.Chain' (· < ·) ((processCandles (a ++ b) none).map Candle.time) ∧
    ∀ q ∈ processCandles (a ++ b) none, ∃ c : CryptoCompareCandle,
      (a ++ b).find? (fun x => x.time == q.time) = some c ∧ q = toCandle c := by
  have hout : processCandles (a ++ b) none
      = (sortByTime (dedupByTime [] (a ++ b))).map toCandle := rfl
  have hperm : List.Perm (sortByTime (dedupByTime [] (a ++ b)))
      (dedupByTime [] (a ++ b)) := List.mergeSort_perm _ _
  have hsplit : dedupByTime [] (a ++ b)
      = a ++ b.filter (fun c => decide (c.time ∉ a.map CryptoCompareCandle.time)) := by
    rw [dedupByTime_append a b []]
    congr 1
    · rw [dedupByTime_eq_filter a ha []]
      apply List.filter_eq_self.mpr
      intro x _
      simp
    · rw [dedupByTime_eq_filter b hb (seenAfter [] a)]
      apply List.filter_congr
      intro x _
      have hiff := mem_seenAfter a [] x.time
      simp only [List.not_mem_nil, false_or] at hiff
      exact decide_eq_decide.mpr (not_congr hiff)
  refine ⟨?_, ?_, ?_⟩
  · rw [hout, List.length_map, hperm.length_eq, hsplit, List.length_append]
    have hfun : (fun c : CryptoCompareCandle =>
          decide (c.time ∉ a.map CryptoCompareCandle.time))
        = fun c : CryptoCompareCandle =>
          !(decide (c.time ∈ a.map CryptoCompareCandle.time)) := by
      funext c
      rw [decide_not]
    rw [hfun]
    have hcompl := length_filter_compl
      (fun c : CryptoCompareCandle => decide (c.time ∈ a.map CryptoCompareCandle.time)) b
    have hk : (b.filter fun c =>
        decide (c.time ∈ a.map CryptoCompareCandle.time)).length ≤ b.length :=
      List.length_filter_le _ _
    omega
  · have hnodupD : ((dedupByTime [] (a ++ b)).map CryptoCompareCandle.time).Nodup :=
      (dedupByTime_times (a ++ b) []).1
    have hnodupS : ((sortByTime (dedupByTime [] (a ++ b))).map
        CryptoCompareCandle.time).Nodup :=
      ((hperm.map CryptoCompareCandle.time).nodup_iff).mpr hnodupD
    have hne : List.Pairwise
        (fun x y : CryptoCompareCandle => x.time ≠ y.time)
        (sortByTime (dedupByTime [] (a ++ b))) := List.pairwise_map.mp hnodupS
    have hlt : List.Pairwise
        (fun x y : CryptoCompareCandle => x.time < y.time)
        (sortByTime (dedupByTime [] (a ++ b))) := by
      have hle := sortByTime_sorted (dedupByTime [] (a ++ b))
      exact (hle.and hne).imp fun hxy => lt_of_le_of_ne hxy.1 hxy.2
    rw [hout, List.map_map]
    have hcomp : (Candle.time ∘ toCandle) = CryptoCompareCandle.time := rfl
    rw [hcomp]
    exact (List.pairwise_map.mpr hlt).chain'
  · intro q hq
    rw [hout] at hq
    obtain ⟨r, hr, rfl⟩ := List.mem_map.mp hq
    refine ⟨r, ?_, rfl⟩
    exact dedupByTime_find? (a ++ b) [] r (hperm.mem_iff.mp hr)

/-- Two overlapping batches: `mergeA` and `mergeB` share the timestamp `1`. -/
def mergeA : List CryptoCompareCandle :=
  [⟨0, 1, 2, 0, 1, 3, 0⟩, ⟨1, 1, 5, 1, 4, 4, 0⟩]

/-- Second batch of the merge example. -/
def mergeB : List CryptoCompareCandle :=
  [⟨1, 9, 9, 9, 9, 9, 0⟩, ⟨2, 4, 6, 2, 5, 5, 0⟩]

/-- Witness for `processCandles_merge_spec` at the overlapping batches:
`2 + 2 - 1 = 3` candles survive, sorted strictly by time. -/
theorem processCandles_merge_spec_witness :
    (processCandles (mergeA ++ mergeB) none).length
      = mergeA.length + mergeB.length
        - (mergeB.filter fun c =>
            decide (c.time ∈ mergeA.map CryptoCompareCandle.time)).length ∧
    List.Chain' (· < ·) ((processCandles (mergeA ++ mergeB) none).map Candle.time) :=
  ⟨(processCandles_merge_spec mergeA mergeB (by decide) (by decide)).1,
   (processCandles_merge_spec mergeA mergeB (by decide) (by decide)).2.1⟩

/-! ## Candle-sequence invariant (C7) -/

/-- The data-model invariant on one candle:
`high ≥ max(open, close)` and `low ≤ min(open, close)`. -/
def ValidCandle (c : Candle) : Prop :=
  max c.«open» c.close ≤ c.high ∧ c.low ≤ min c.«open» c.close

/-- The same invariant on a raw provider candle. -/
def ValidRaw (r : CryptoCompareCandle) : Prop :=
  max r.«open» r.close ≤ r.high ∧ r.low ≤ min r.«open» r.close

/-- The `loadMoreHistory` merge step (useCandlestickData.ts lines 123-132):
drop fetched candles whose timestamp is already held, then prepend. -/
def mergeHistory (moreCandles data : List Candle) : List Candle :=
  (moreCandles.filter fun c => decide (c.time ∉ data.map Candle.time)) ++ data

theorem processCandles_none_chain (raw : List CryptoCompareCandle) :
    List.Chain' (· < ·) ((processCandles raw none).map Candle.time) := by
  have hout : processCandles raw none
      = (sortByTime (dedupByTime [] raw)).map toCandle := rfl
  have hperm : List.Perm (sortByTime (dedupByTime [] raw)) (dedupByTime [] raw) :=
    List.mergeSort_perm _ _
  have hnodupD : ((dedupByTime [] raw).map CryptoCompareCandle.time).Nodup :=
    (dedupByTime_times raw []).1
  have hnodupS : ((sortByTime (dedupByTime [] raw)).map CryptoCompareCandle.time).Nodup :=
    ((hperm.map CryptoCompareCandle.time).nodup_iff).mpr hnodupD
  have hne : List.Pairwise (fun x y : CryptoCompareCandle => x.time ≠ y.time)
      (sortByTime (dedupByTime [] raw)) := List.pairwise_map.mp hnodupS
  have hlt : List.Pairwise (fun x y : CryptoCompareCandle => x.time < y.time)
      (sortByTime (dedupByTime [] raw)) := by
    have hle := sortByTime_sorted (dedupByTime [] raw)
    exact (hle.and hne).imp fun hxy => lt_of_le_of_ne hxy.1 hxy.2
  rw [hout, List.map_map]
  have hcomp : (Candle.time ∘ toCandle) = CryptoCompareCandle.time := rfl
  rw [hcomp]
  exact (List.pairwise_map.mpr hlt).chain'

theorem processCandles_none_valid (raw : List CryptoCompareCandle)
    (hraw : ∀ r ∈ raw, ValidRaw r) :
    ∀ q ∈ processCandles raw none, ValidCandle q := by
  intro q hq
  have hout : processCandles raw none
      = (sortByTime (dedupByTime [] raw)).map toCandle := rfl
  rw [hout] at hq
  obtain ⟨r, hr, rfl⟩ := List.mem_map.mp hq
  have hperm : List.Perm (sortByTime (dedupByTime [] raw)) (dedupByTime [] raw) :=
    List.mergeSort_perm _ _
  have hrD : r ∈ dedupByTime [] raw := hperm.mem_iff.mp hr
  have hrraw : r ∈ raw :=
    List.mem_of_find?_eq_some (dedupByTime_find? raw [] r hrD)
  exact hraw r hrraw

theorem chunkAgg_times_sublist (p : ℕ) (hp : 1 ≤ p) : ∀ (n : ℕ) (l : List Candle),
    l.length ≤ n → ((chunkAgg p l).map Candle.time).Sublist (l.map Candle.time) := by
  intro n
  induction n with
  | zero =>
    intro l hl
    have hnil : l = [] := by
      cases l with
      | nil => rfl
      | cons x xs => simp at hl
    subst hnil
    rw [chunkAgg_nil]
  | succ m ih =>
    intro l hl
    cases l with
    | nil => rw [chunkAgg_nil]
    | cons c rest =>
      rw [chunkAgg_cons]
      simp only [List.map_cons]
      have hbt : (aggBar c (rest.take (p - 1))).time = c.time := rfl
      rw [hbt]
      apply List.Sublist.cons₂
      have h1 := ih (rest.drop (p - 1)) (by
        simp only [List.length_cons] at hl
        simp only [List.length_drop]
        omega)
      rw [List.map_drop] at h1
      exact h1.trans (List.drop_sublist _ _)

theorem chunkAgg_mem_shape (p : ℕ) : ∀ (n : ℕ) (l : List Candle), l.length ≤ n →
    ∀ bar ∈ chunkAgg p l, ∃ (c : Candle) (r : List Candle),
      bar = aggBar c r ∧ c ∈ l ∧ ∀ x ∈ r, x ∈ l := by
  intro n
  induction n with
  | zero =>
    intro l hl bar hbar
    have hnil : l = [] := by
      cases l with
      | nil => rfl
      | cons x xs => simp at hl
    subst hnil
    rw [chunkAgg_nil] at hbar
    simp at hbar
  | succ m ih =>
    intro l hl bar hbar
    cases l with
    | nil =>
      rw [chunkAgg_nil] at hbar
      simp at hbar
    | cons c rest =>
      rw [chunkAgg_cons] at hbar
      rcases List.mem_cons.mp hbar with rfl | hbar
      · exact ⟨c, rest.take (p - 1), rfl, List.mem_cons_self c rest,
          fun x hx => List.mem_cons_of_mem c (List.take_subset _ _ hx)⟩
      · obtain ⟨c', r', heq, hc', hr'⟩ := ih (rest.drop (p - 1)) (by
          simp only [List.length_cons] at hl
          simp only [List.length_drop]
          omega) bar hbar
        exact ⟨c', r', heq, List.mem_cons_of_mem c (List.drop_subset _ _ hc'),
          fun x hx => List.mem_cons_of_mem c (List.drop_subset _ _ (hr' x hx))⟩

theorem aggBar_valid (c : Candle) (r : List Candle)
    (hc : ValidCandle c) (hr : ∀ x ∈ r, ValidCandle x) :
    ValidCandle (aggBar c r) := by
  have hlastmem := List.getLast_mem (List.cons_ne_nil c r)
  have hlastvalid : ValidCandle ((c :: r).getLast (List.cons_ne_nil c r)) := by
    rcases List.mem_cons.mp hlastmem with heq | hmem
    · rw [heq]; exact hc
    · exact hr _ hmem
  constructor
  · apply max_le
    · show c.«open» ≤ qmax ((c :: r).map Candle.high)
      calc c.«open» ≤ c.high := le_trans (le_max_left _ _) hc.1
        _ ≤ qmax ((c :: r).map Candle.high) :=
          le_qmax _ _ (List.mem_map_of_mem Candle.high (List.mem_cons_self c r))
    · show ((c :: r).getLast _).close ≤ qmax ((c :: r).map Candle.high)
      calc ((c :: r).getLast _).close ≤ ((c :: r).getLast _).high :=
            le_trans (le_max_right _ _) hlastvalid.1
        _ ≤ qmax ((c :: r).map Candle.high) :=
          le_qmax _ _ (List.mem_map_of_mem Candle.high hlastmem)
  · apply le_min
    · show qmin ((c :: r).map Candle.low) ≤ c.«open»
      calc qmin ((c :: r).map Candle.low)
            ≤ c.low := qmin_le _ _ (List.mem_map_of_mem Candle.low (List.mem_cons_self c r))
        _ ≤ c.«open» := le_trans hc.2 (min_le_left _ _)
    · show qmin ((c :: r).map Candle.low) ≤ ((c :: r).getLast _).close
      calc qmin ((c :: r).map Candle.low)
            ≤ ((c :: r).getLast _).low :=
          qmin_le _ _ (List.mem_map_of_mem Candle.low hlastmem)
        _ ≤ ((c :: r).getLast _).close := le_trans hlastvalid.2 (min_le_right _ _)

theorem aggregateCandles_eq_chunkAgg (candles : List Candle) (p : ℕ) (hp : 1 ≤ p) :
    aggregateCandles candles p = chunkAgg p candles := by
  unfold aggregateCandles
  by_cases h : p ≤ 1
  · rw [if_pos h]
    have hp1 : p = 1 := by omega
    subst hp1
    exact (chunkAgg_one candles.length candles le_rfl).symm
  · rw [if_neg h]

/-- **C7** (confirmed).  Each of the three series-producing operations —
`processCandles`' dedup-and-sort, positional aggregation, and the
`loadMoreHistory` merge that prepends strictly older candles — keeps the
candle-sequence invariant: timestamps strictly increasing (hence duplicate
free), and, for inputs of individually valid candles, every output candle
satisfies `high ≥ max(open, close)` and `low ≤ min(open, close)`. -/
theorem candle_pipeline_invariants :
    (∀ raw : List CryptoCompareCandle,
      List.Chain' (· < ·) ((processCandles raw none).map Candle.time) ∧
      ((∀ r ∈ raw, ValidRaw r) → ∀ q ∈ processCandles raw none, ValidCandle q)) ∧
    (∀ (candles : List Candle) (p : ℕ), 1 ≤ p →
      List.Chain' (· < ·) (candles.map Candle.time) →
      List.Chain' (· < ·) ((aggregateCandles candles p).map Candle.time) ∧
      ((∀ c ∈ candles, ValidCandle c) →
        ∀ q ∈ aggregateCandles candles p, ValidCandle q)) ∧
    (∀ (moreCandles data : List Candle),
      List.Chain' (· < ·) (moreCandles.map Candle.time) →
      List.Chain' (· < ·) (data.map Candle.time) →
      (∀ m ∈ moreCandles, ∀ d ∈ data, m.time < d.time) →
      List.Chain' (· < ·) ((mergeHistory moreCandles data).map Candle.time) ∧
      ((∀ c ∈ moreCandles, ValidCandle c) → (∀ c ∈ data, ValidCandle c) →
        ∀ q ∈ mergeHistory moreCandles data, ValidCandle q)) := by
  refine ⟨?_, ?_, ?_⟩
  · intro raw
    exact ⟨processCandles_none_chain raw, processCandles_none_valid raw⟩
  · intro candles p hp hchain
    rw [aggregateCandles_eq_chunkAgg candles p hp]
    constructor
    · have hpair := List.chain'_iff_pairwise.mp hchain
      have hsub := chunkAgg_times_sublist p hp candles.length candles le_rfl
      exact List.chain'_iff_pairwise.mpr (hpair.sublist hsub)
    · intro hval q hq
      obtain ⟨c, r, rfl, hc, hr⟩ :=
        chunkAgg_mem_shape p candles.length candles le_rfl q hq
      exact aggBar_valid c r (hval c hc) (fun x hx => hval x (hr x hx))
  · intro moreCandles data hmore hdata holder
    constructor
    · rw [mergeHistory, List.map_append]
      apply List.chain'_iff_pairwise.mpr
      apply List.pairwise_append.mpr
      refine ⟨?_, ?_, ?_⟩
      · exact (List.chain'_iff_pairwise.mp hmore).sublist
          ((List.filter_sublist _).map Candle.time)
      · exact List.chain'_iff_pairwise.mp hdata
      · intro x hx y hy
        obtain ⟨m, hm, rfl⟩ := List.mem_map.mp hx
        obtain ⟨d, hd, rfl⟩ := List.mem_map.mp hy
        exact holder m (List.mem_of_mem_filter hm) d hd
    · intro hvm hvd q hq
      rcases List.mem_append.mp hq with hq | hq
      · exact hvm q (List.mem_of_mem_filter hq)
      · exact hvd q hq

/-- Strictly older candles to prepend in the merge example. -/
def mergeMore : List Candle := [⟨-2, 1, 1, 1, 1, 1⟩]

/-- Witness for `candle_pipeline_invariants` at concrete inputs: sorted
validity of dedup-sort on `mergeA`, aggregation of `aggExample` by 2, and the
history merge of `mergeMore` onto `aggExample`. -/
theorem candle_pipeline_invariants_witness :
    (∀ q ∈ processCandles mergeA none, ValidCandle q) ∧
    List.Chain' (· < ·) ((aggregateCandles aggExample 2).map Candle.time) ∧
    List.Chain' (· < ·) ((mergeHistory mergeMore aggExample).map Candle.time) :=
  ⟨(candle_pipeline_invariants.1 mergeA).2
      (by
        intro r hr
        simp [mergeA] at hr
        rcases hr with rfl | rfl <;> exact ⟨by norm_num, by norm_num⟩),
   (candle_pipeline_invariants.2.1 aggExample 2 (by norm_num)
      (by simp [aggExample])).1,
   (candle_pipeline_invariants.2.2 mergeMore aggExample (by simp [mergeMore])
      (by simp [aggExample]) (by decide)).1⟩

/-! ## Provider fallback (`fetchData`, useCandlestickData.ts lines 42-89)

The crypto branch tries CryptoCompare, then Binance, then CoinGecko.  A
provider call is modelled as `Except String (List Candle)` (`.error` for a
thrown fetch error).  The stale-version guard is concurrency plumbing and is
not part of the decision logic modelled here. -/

/-- `throw lastError || new Error('Symbol ... not found')` (line 89). -/
def fetchFail : Option String → Except String (List Candle)
  | some e => Except.error e
  | none => Except.error "Symbol not found on any exchange"

/-- CoinGecko attempt (lines 75-86): accepted when it returns any candles
(`candles.length > 0`). -/
def fetchStep3 (lastError : Option String) (r3 : Except String (List Candle)) :
    Except String (List Candle) :=
  match r3 with
  | Except.ok c3 => if 0 < c3.length then Except.ok c3 else fetchFail lastError
  | Except.error e3 => fetchFail (some e3)

/-- Binance attempt (lines 61-72): accepted when `candles.length >= 10`. -/
def fetchStep2 (lastError : Option String) (r2 r3 : Except String (List Candle)) :
    Except String (List Candle) :=
  match r2 with
  | Except.ok c2 => if 10 ≤ c2.length then Except.ok c2 else fetchStep3 lastError r3
  | Except.error e2 => fetchStep3 (some e2) r3

/-- The decision logic of `fetchData`'s crypto branch: CryptoCompare first
(accepted when `length >= 10`, lines 47-54), then Binance, then CoinGecko;
on exhaustion the last recorded error (or the synthetic not-found error). -/
def fetchData (r1 r2 r3 : Except String (List Candle)) :
    Except String (List Candle) :=
  match r1 with
  | Except.ok c1 => if 10 ≤ c1.length then Except.ok c1 else fetchStep2 none r2 r3
  | Except.error e1 => fetchStep2 (some e1) r2 r3

/-- **C9** (confirmed).  A provider returning fewer than 10 bars is a soft
failure: the next provider is tried, and when a later provider returns at
least 10 bars its full series is the result, with no error surfaced. -/
theorem fetchData_soft_failure_fallback :
    (∀ (c1 c2 : List Candle) (r3 : Except String (List Candle)),
      c1.length < 10 → 10 ≤ c2.length →
      fetchData (Except.ok c1) (Except.ok c2) r3 = Except.ok c2) ∧
    (∀ c1 c2 c3 : List Candle,
      c1.length < 10 → c2.length < 10 → 10 ≤ c3.length →
      fetchData (Except.ok c1) (Except.ok c2) (Except.ok c3) = Except.ok c3) := by
  constructor
  · intro c1 c2 r3 h1 h2
    simp only [fetchData, fetchStep2]
    rw [if_neg (by omega), if_pos h2]
  · intro c1 c2 c3 h1 h2 h3
    simp only [fetchData, fetchStep2, fetchStep3]
    rw [if_neg (by omega), if_neg (by omega), if_pos (by omega)]

/-- A 10-bar series for the fallback witness. -/
def tenBars : List Candle := List.replicate 10 ⟨0, 1, 1, 1, 1, 1⟩

/-- Witness for `fetchData_soft_failure_fallback`: provider 1 returns 0 bars,
provider 2 returns 10 — the result is provider 2's series, no error. -/
theorem fetchData_soft_failure_fallback_witness :
    fetchData (Except.ok []) (Except.ok tenBars) (Except.error "down")
      = Except.ok tenBars ∧
    fetchData (Except.ok []) (Except.ok []) (Except.ok tenBars)
      = Except.ok tenBars :=
  ⟨fetchData_soft_failure_fallback.1 [] tenBars (Except.error "down")
      (by simp) (by simp [tenBars]),
   fetchData_soft_failure_fallback.2 [] [] tenBars
      (by simp) (by simp) (by simp [tenBars])⟩

/-! ## Key levels (KeyLevelsCalculator.ts)

The JS code derives grouping keys from `Date`'s UTC calendar fields.  The
`Date` conversion is modelled by the standard civil-from-days algorithm over
`ℤ` (floor division), and `Array.prototype.sort` (a stable sort) by
`List.insertionSort`. -/

/-- UTC day number of a unix-seconds timestamp (floor of `t / 86400`). -/
def dayNumber (t : ℤ) : ℤ := Int.fdiv t 86400

/-- Gregorian `(year, month 1-12, day 1-31)` of a day number counted from
1970-01-01, the standard civil-from-days algorithm (models the UTC calendar
fields of the JS `Date` used for the grouping keys). -/
def civilFromDays (z : ℤ) : ℤ × ℤ × ℤ :=
  let z' := z + 719468
  let era := Int.fdiv z' 146097
  let doe := z' - era * 146097
  let yoe := Int.fdiv (doe - Int.fdiv doe 1460 + Int.fdiv doe 36524 - Int.fdiv doe 146096) 365
  let y := yoe + era * 400
  let doy := doe - (365 * yoe + Int.fdiv yoe 4 - Int.fdiv yoe 100)
  let mp := Int.fdiv (5 * doy + 2) 153
  let d := doy - Int.fdiv (153 * mp + 2) 5 + 1
  let m := mp + (if mp < 10 then 3 else -9)
  (y + (if m ≤ 2 then 1 else 0), m, d)

/-- Daily grouping key (lines 60-62): the UTC calendar date. -/
def dayKey (t : ℤ) : ℤ × ℤ × ℤ := civilFromDays (dayNumber t)

/-- Weekly grouping key (lines 64-71): the calendar date of the Monday on or
before the candle's day (`getUTCDate() - day + (day === 0 ? -6 : 1)`). -/
def weekKey (t : ℤ) : ℤ × ℤ × ℤ :=
  let d := dayNumber t
  let wd := Int.emod (d + 4) 7
  civilFromDays (d - (if wd = 0 then 6 else wd - 1))

/-- Monthly grouping key (line 74): UTC year and month. -/
def monthKey (t : ℤ) : ℤ × ℤ :=
  let c := civilFromDays (dayNumber t)
  (c.1, c.2.1)

/-- Yearly grouping key (line 79): UTC year. -/
def yearKey (t : ℤ) : ℤ := (civilFromDays (dayNumber t)).1

/-- `[...data].sort((a, b) => a.time - b.time)` modelled by a stable sort. -/
def sortCandles (l : List Candle) : List Candle :=
  l.insertionSort fun a b => a.time ≤ b.time

/-- Append a candle to its key's group, preserving first-seen group order
(the JS `Map` insertion-order semantics of lines 56-82). -/
def addToGroups {κ : Type} [DecidableEq κ] (k : κ) (c : Candle) :
    List (κ × List Candle) → List (κ × List Candle)
  | [] => [(k, [c])]
  | (k', cs) :: gs =>
    if k' = k then (k', cs ++ [c]) :: gs else (k', cs) :: addToGroups k c gs

/-- Group candles by key in first-seen key order. -/
def groupByKey {κ : Type} [DecidableEq κ] (key : Candle → κ) (l : List Candle) :
    List (κ × List Candle) :=
  l.foldl (fun gs c => addToGroups (key c) c gs) []

/-- One aggregated calendar period (`aggregatePeriod` plus the `firstTime`
tag, lines 85-110). -/
structure PeriodData (κ : Type) where
  key : κ
  «open» : ℚ
  high : ℚ
  low : ℚ
  close : ℚ
  firstTime : ℤ

/-- Build the sorted period list of one granularity (lines 85-110):
group the time-sorted data, aggregate each group (`open` of first, max
`high`, min `low`, `close` of last after an inner sort), tag with the
group's first candle time, and sort the periods by it. -/
def buildPeriods {κ : Type} [DecidableEq κ] (key : Candle → κ) (data : List Candle) :
    List (PeriodData κ) :=
  let sortedData := sortCandles data
  ((groupByKey key sortedData).map fun g =>
    let sorted := sortCandles g.2
    { key := g.1
      «open» := (sorted.headI).«open»
      high := qmax (sorted.map Candle.high)
      low := qmin (sorted.map Candle.low)
      close := (sorted.getLastD ⟨0, 0, 0, 0, 0, 0⟩).close
      firstTime := (g.2.headI).time }).insertionSort
    fun a b => a.firstTime ≤ b.firstTime

/-- One granularity's slot of `KeyLevelsData` (KeyLevelsCalculator.ts lines
10-28), `null` as `none`. -/
structure PeriodLevels where
  «open» : Option ℚ
  prevHigh : Option ℚ
  prevLow : Option ℚ
  prevClose : Option ℚ
  deriving Repr, DecidableEq

/-- `KeyLevelsData` (lines 10-32). -/
structure KeyLevelsData where
  daily : PeriodLevels
  weekly : PeriodLevels
  monthly : PeriodLevels
  yearlyOpen : Option ℚ
  deriving Repr, DecidableEq

/-- The current/previous selection of lines 120-154: current period's open
for one or more periods, previous period's high/low/close for two or more. -/
def levelsOf {κ : Type} (ps : List (PeriodData κ)) : PeriodLevels :=
  { «open» := if 1 ≤ ps.length then (ps.get? (ps.length - 1)).map (·.«open») else none
    prevHigh := if 2 ≤ ps.length then (ps.get? (ps.length - 2)).map (·.high) else none
    prevLow := if 2 ≤ ps.length then (ps.get? (ps.length - 2)).map (·.low) else none
    prevClose := if 2 ≤ ps.length then (ps.get? (ps.length - 2)).map (·.close) else none }

/-- The all-`null` record returned for empty input (lines 39-46). -/
def emptyKeyLevels : KeyLevelsData :=
  ⟨⟨none, none, none, none⟩, ⟨none, none, none, none⟩, ⟨none, none, none, none⟩, none⟩

/-- `calculateKeyLevels` (lines 38-167).  `nowYear` models
`new Date().getUTCFullYear()` used by the yearly-open lookup (line 159). -/
def calculateKeyLevels (data : List Candle) (nowYear : ℤ) : KeyLevelsData :=
  match data with
  | [] => emptyKeyLevels
  | _ :: _ =>
    { daily := levelsOf (buildPeriods (fun c => dayKey c.time) data)
      weekly := levelsOf (buildPeriods (fun c => weekKey c.time) data)
      monthly := levelsOf (buildPeriods (fun c => monthKey c.time) data)
      yearlyOpen :=
        if 1 ≤ (buildPeriods (fun c => yearKey c.time) data).length then
          ((buildPeriods (fun c => yearKey c.time) data).find?
            fun p => p.key == nowYear).map (·.«open»)
        else none }

/-- `type` of a `KeyLevel` (line 6). -/
inductive LevelType where
  | daily
  | weekly
  | monthly
  | yearly
  deriving Repr, DecidableEq

/-- `subtype` of a `KeyLevel` (line 7). -/
inductive LevelSubtype where
  | «open»
  | high
  | low
  | close
  deriving Repr, DecidableEq

/-- `KeyLevel` (lines 3-8). -/
structure KeyLevel where
  price : ℚ
  label : String
  type : LevelType
  subtype : LevelSubtype
  deriving Repr, DecidableEq

/-- One conditional `result.push(...)` of `keyLevelsToArray`. -/
def levelEntry (o : Option ℚ) (label : String) (t : LevelType) (s : LevelSubtype) :
    List KeyLevel :=
  match o with
  | some price => [⟨price, label, t, s⟩]
  | none => []

/-- `keyLevelsToArray` (lines 169-211): pushes, in order, daily open / PDH /
PDL, weekly open / PWH / PWL, monthly open / PMH / PML, and the yearly open.
No `close` subtype is ever pushed. -/
def keyLevelsToArray (levels : KeyLevelsData) : List KeyLevel :=
  levelEntry levels.daily.«open» "D Open" LevelType.daily LevelSubtype.«open» ++
  levelEntry levels.daily.prevHigh "PDH" LevelType.daily LevelSubtype.high ++
  levelEntry levels.daily.prevLow "PDL" LevelType.daily LevelSubtype.low ++
  levelEntry levels.weekly.«open» "W Open" LevelType.weekly LevelSubtype.«open» ++
  levelEntry levels.weekly.prevHigh "PWH" LevelType.weekly LevelSubtype.high ++
  levelEntry levels.weekly.prevLow "PWL" LevelType.weekly LevelSubtype.low ++
  levelEntry levels.monthly.«open» "M Open" LevelType.monthly LevelSubtype.«open» ++
  levelEntry levels.monthly.prevHigh "PMH" LevelType.monthly LevelSubtype.high ++
  levelEntry levels.monthly.prevLow "PML" LevelType.monthly LevelSubtype.low ++
  levelEntry levels.yearlyOpen "Y Open" LevelType.yearly LevelSubtype.«open»

theorem mem_levelEntry (o : Option ℚ) (lab : String) (t : LevelType)
    (s : LevelSubtype) (l : KeyLevel) :
    l ∈ levelEntry o lab t s ↔ ∃ p, o = some p ∧ l = ⟨p, lab, t, s⟩ := by
  cases o <;> simp [levelEntry]

theorem keyLevelsToArray_mem (L : KeyLevelsData) (l : KeyLevel) :
    l ∈ keyLevelsToArray L ↔
      (∃ p, L.daily.«open» = some p
        ∧ l = ⟨p, "D Open", LevelType.daily, LevelSubtype.«open»⟩) ∨
      (∃ p, L.daily.prevHigh = some p
        ∧ l = ⟨p, "PDH", LevelType.daily, LevelSubtype.high⟩) ∨
      (∃ p, L.daily.prevLow = some p
        ∧ l = ⟨p, "PDL", LevelType.daily, LevelSubtype.low⟩) ∨
      (∃ p, L.weekly.«open» = some p
        ∧ l = ⟨p, "W Open", LevelType.weekly, LevelSubtype.«open»⟩) ∨
      (∃ p, L.weekly.prevHigh = some p
        ∧ l = ⟨p, "PWH", LevelType.weekly, LevelSubtype.high⟩) ∨
      (∃ p, L.weekly.prevLow = some p
        ∧ l = ⟨p, "PWL", LevelType.weekly, LevelSubtype.low⟩) ∨
      (∃ p, L.monthly.«open» = some p
        ∧ l = ⟨p, "M Open", LevelType.monthly, LevelSubtype.«open»⟩) ∨
      (∃ p, L.monthly.prevHigh = some p
        ∧ l = ⟨p, "PMH", LevelType.monthly, LevelSubtype.high⟩) ∨
      (∃ p, L.monthly.prevLow = some p
        ∧ l = ⟨p, "PML", LevelType.monthly, LevelSubtype.low⟩) ∨
      (∃ p, L.yearlyOpen = some p
        ∧ l = ⟨p, "Y Open", LevelType.yearly, LevelSubtype.«open»⟩) := by
  simp only [keyLevelsToArray, List.mem_append, mem_levelEntry, or_assoc]

theorem keyLevelsToArray_no_close (L : KeyLevelsData) :
    ∀ l ∈ keyLevelsToArray L, l.subtype ≠ LevelSubtype.close := by
  intro l hl
  rw [keyLevelsToArray_mem] at hl
  rcases hl with ⟨p, _, rfl⟩ | ⟨p, _, rfl⟩ | ⟨p, _, rfl⟩ | ⟨p, _, rfl⟩ | ⟨p, _, rfl⟩ |
    ⟨p, _, rfl⟩ | ⟨p, _, rfl⟩ | ⟨p, _, rfl⟩ | ⟨p, _, rfl⟩ | ⟨p, _, rfl⟩ <;> simp

/-- Two candles one UTC day apart: two completed daily periods. -/
def kl2days : List Candle := [⟨0, 1, 2, 0, 1, 3⟩, ⟨86400, 2, 3, 1, 2, 4⟩]

/-- **C4 counterexample.**  `kl2days` has two daily periods, so the previous
day's close is available in `KeyLevelsData` — yet `keyLevelsToArray` emits no
level of subtype `close` (PDC is never pushed), refuting the claim that the
previous period's close is exposed as a level. -/
theorem keyLevels_claim_counterexample :
    2 ≤ (buildPeriods (fun c => dayKey c.time) kl2days).length ∧
    (calculateKeyLevels kl2days 1970).daily.prevClose.isSome = true ∧
    ∀ l ∈ keyLevelsToArray (calculateKeyLevels kl2days 1970),
      l.subtype ≠ LevelSubtype.close :=
  ⟨by decide, by decide, keyLevelsToArray_no_close _⟩

/-- **C4** (corrected).  The key-levels output exposes, per granularity
(daily/weekly/monthly), the current period's open and the previous completed
period's high and low — but **not its close**, which `calculateKeyLevels`
computes into `KeyLevelsData` and `keyLevelsToArray` never pushes.  A level
is absent exactly when the period count is insufficient (fewer than 1 period
for the current open, fewer than 2 for previous-period levels).  Stated as:
(1) the exact membership description of the emitted array; (2) the record
fields are the per-granularity period selections; (3) the selections are
`some` exactly at the claimed period counts and carry the current open /
previous high / previous low; (4) no emitted level has subtype `close`. -/
theorem keyLevels_exposure :
    (∀ (L : KeyLevelsData) (l : KeyLevel),
      l ∈ keyLevelsToArray L ↔
        (∃ p, L.daily.«open» = some p
          ∧ l = ⟨p, "D Open", LevelType.daily, LevelSubtype.«open»⟩) ∨
        (∃ p, L.daily.prevHigh = some p
          ∧ l = ⟨p, "PDH", LevelType.daily, LevelSubtype.high⟩) ∨
        (∃ p, L.daily.prevLow = some p
          ∧ l = ⟨p, "PDL", LevelType.daily, LevelSubtype.low⟩) ∨
        (∃ p, L.weekly.«open» = some p
          ∧ l = ⟨p, "W Open", LevelType.weekly, LevelSubtype.«open»⟩) ∨
        (∃ p, L.weekly.prevHigh = some p
          ∧ l = ⟨p, "PWH", LevelType.weekly, LevelSubtype.high⟩) ∨
        (∃ p, L.weekly.prevLow = some p
          ∧ l = ⟨p, "PWL", LevelType.weekly, LevelSubtype.low⟩) ∨
        (∃ p, L.monthly.«open» = some p
          ∧ l = ⟨p, "M Open", LevelType.monthly, LevelSubtype.«open»⟩) ∨
        (∃ p, L.monthly.prevHigh = some p
          ∧ l = ⟨p, "PMH", LevelType.monthly, LevelSubtype.high⟩) ∨
        (∃ p, L.monthly.prevLow = some p
          ∧ l = ⟨p, "PML", LevelType.monthly, LevelSubtype.low⟩) ∨
        (∃ p, L.yearlyOpen = some p
          ∧ l = ⟨p, "Y Open", LevelType.yearly, LevelSubtype.«open»⟩)) ∧
    (∀ (data : List Candle) (nowYear : ℤ), data ≠ [] →
      (calculateKeyLevels data nowYear).daily
          = levelsOf (buildPeriods (fun c => dayKey c.time) data) ∧
      (calculateKeyLevels data nowYear).weekly
          = levelsOf (buildPeriods (fun c => weekKey c.time) data) ∧
      (calculateKeyLevels data nowYear).monthly
          = levelsOf (buildPeriods (fun c => monthKey c.time) data)) ∧
    (∀ (κ : Type) (ps : List (PeriodData κ)),
      ((levelsOf ps).«open» = none ↔ ps.length < 1) ∧
      ((levelsOf ps).prevHigh = none ↔ ps.length < 2) ∧
      ((levelsOf ps).prevLow = none ↔ ps.length < 2) ∧
      (∀ cur, ps.get? (ps.length - 1) = some cur →
        (levelsOf ps).«open» = some cur.«open») ∧
      (∀ prev, 2 ≤ ps.length → ps.get? (ps.length - 2) = some prev →
        (levelsOf ps).prevHigh = some prev.high ∧
        (levelsOf ps).prevLow = some prev.low)) ∧
    (∀ (L : KeyLevelsData) (l : KeyLevel), l ∈ keyLevelsToArray L →
      l.subtype ≠ LevelSubtype.close) := by
  refine ⟨keyLevelsToArray_mem, ?_, ?_, keyLevelsToArray_no_close⟩
  · intro data nowYear hne
    cases data with
    | nil => exact absurd rfl hne
    | cons c rest => exact ⟨rfl, rfl, rfl⟩
  · intro κ ps
    refine ⟨?_, ?_, ?_, ?_, ?_⟩
    · show (if 1 ≤ ps.length then (ps.get? (ps.length - 1)).map (·.«open») else none)
          = none ↔ ps.length < 1
      by_cases h : 1 ≤ ps.length
      · rw [if_pos h]
        simp only [Option.map_eq_none', List.get?_eq_none]
        omega
      · rw [if_neg h]
        simp only [eq_self_iff_true, true_iff]
        omega
    · show (if 2 ≤ ps.length then (ps.get? (ps.length - 2)).map (·.high) else none)
          = none ↔ ps.length < 2
      by_cases h : 2 ≤ ps.length
      · rw [if_pos h]
        simp only [Option.map_eq_none', List.get?_eq_none]
        omega
      · rw [if_neg h]
        simp only [eq_self_iff_true, true_iff]
        omega
    · show (if 2 ≤ ps.length then (ps.get? (ps.length - 2)).map (·.low) else none)
          = none ↔ ps.length < 2
      by_cases h : 2 ≤ ps.length
      · rw [if_pos h]
        simp only [Option.map_eq_none', List.get?_eq_none]
        omega
      · rw [if_neg h]
        simp only [eq_self_iff_true, true_iff]
        omega
    · intro cur hcur
      have hlen : 1 ≤ ps.length := by
        by_contra hcon
        have hnil : ps = [] := by
          cases ps with
          | nil => rfl
          | cons x xs => simp at hcon
        rw [hnil] at hcur
        simp at hcur
      show (if 1 ≤ ps.length then (ps.get? (ps.length - 1)).map (·.«open») else none)
          = some cur.«open»
      rw [if_pos hlen, hcur]
      rfl
    · intro prev hlen hprev
      constructor
      · show (if 2 ≤ ps.length then (ps.get? (ps.length - 2)).map (·.high) else none)
            = some prev.high
        rw [if_pos hlen, hprev]
        rfl
      · show (if 2 ≤ ps.length then (ps.get? (ps.length - 2)).map (·.low) else none)
            = some prev.low
        rw [if_pos hlen, hprev]
        rfl

/-- Witness for `keyLevels_exposure` at the two-day input: the daily slot is
the daily period selection and PDH is emitted for it. -/
theorem keyLevels_exposure_witness :
    (calculateKeyLevels kl2days 1970).daily
        = levelsOf (buildPeriods (fun c => dayKey c.time) kl2days) ∧
    ∀ l ∈ keyLevelsToArray (calculateKeyLevels kl2days 1970),
      l.subtype ≠ LevelSubtype.close :=
  ⟨(keyLevels_exposure.2.1 kl2days 1970 (by simp [kl2days])).1,
   keyLevels_exposure.2.2.2 (calculateKeyLevels kl2days 1970)⟩

/-! ## Guppy multi-EMA (src/unnamed/part_003) -/

/-- `GuppyData` of the Guppy calculator: the six short and six long EMA
values at one candle time. -/
structure GuppyData where
  time : ℤ
  short : List ℚ
  long : List ℚ
  deriving Repr, DecidableEq

/-- The EMA recurrence loop of `calculateEMA` (lines 27-30), emitting each
new value: `newEma = (x - ema) * multiplier + ema`. -/
def emaFrom (m : ℚ) : ℚ → List ℚ → List ℚ
  | _, [] => []
  | e, x :: xs => ((x - e) * m + e) :: emaFrom m ((x - e) * m + e) xs

/-- The same recurrence keeping only the final value. -/
def emaRun (m : ℚ) : ℚ → List ℚ → ℚ
  | e, [] => e
  | e, x :: xs => emaRun m ((x - e) * m + e) xs

/-- The SMA seed of `calculateEMA` (lines 17-24). -/
def emaSeed (data : List ℚ) (period : ℕ) : ℚ :=
  ((data.take period).foldl (· + ·) 0) / (period : ℚ)

/-- `calculateEMA` of the Guppy calculator (lines 12-33): empty when fewer
than `period` values, else the SMA seed followed by the EMA recurrence with
multiplier `2/(period+1)`. -/
def calculateEMA (data : List ℚ) (period : ℕ) : List ℚ :=
  if data.length < period then []
  else emaSeed data period ::
    emaFrom (2 / ((period : ℚ) + 1)) (emaSeed data period) (data.drop period)

/-- The final (most recent) EMA value of `calculateEMA`. -/
def emaFinal (data : List ℚ) (period : ℕ) : ℚ :=
  emaRun (2 / ((period : ℚ) + 1)) (emaSeed data period) (data.drop period)

theorem emaFrom_length (m : ℚ) : ∀ (l : List ℚ) (e : ℚ),
    (emaFrom m e l).length = l.length := by
  intro l
  induction l with
  | nil => intro e; rfl
  | cons x xs ih => intro e; simp [emaFrom, ih]

theorem calculateEMA_length (x : List ℚ) (p : ℕ) (hp : p ≤ x.length) :
    (calculateEMA x p).length = x.length - p + 1 := by
  unfold calculateEMA
  rw [if_neg (by omega)]
  simp [emaFrom_length]

theorem emaFrom_get_final (m : ℚ) : ∀ (l : List ℚ) (e : ℚ),
    (e :: emaFrom m e l).get? l.length = some (emaRun m e l) := by
  intro l
  induction l with
  | nil => intro e; rfl
  | cons x xs ih =>
    intro e
    show (((x - e) * m + e) :: emaFrom m ((x - e) * m + e) xs).get? xs.length
      = some (emaRun m ((x - e) * m + e) xs)
    exact ih ((x - e) * m + e)

theorem calculateEMA_get_final (x : List ℚ) (p : ℕ) (hp : p ≤ x.length) :
    (calculateEMA x p).get? (x.length - p) = some (emaFinal x p) := by
  unfold calculateEMA emaFinal
  rw [if_neg (by omega)]
  have h := emaFrom_get_final (2 / ((p : ℚ) + 1)) (x.drop p) (emaSeed x p)
  rwa [List.length_drop] at h

theorem emaRun_append (m : ℚ) : ∀ (a b : List ℚ) (e : ℚ),
    emaRun m e (a ++ b) = emaRun m (emaRun m e a) b := by
  intro a
  induction a with
  | nil => intro b e; rfl
  | cons x xs ih => intro b e; exact ih b ((x - e) * m + e)

/-- Step-preservation: along a strictly increasing tail bounded below by `b`,
a faster EMA strictly above a slower one stays strictly above, and the slower
EMA never exceeds the running maximum. -/
theorem emaRun_lt_of_lt (mp mq : ℚ) (hmp1 : mp ≤ 1) (hmpq : mq < mp) :
    ∀ (l : List ℚ) (b ep eq : ℚ),
    List.Chain' (· < ·) (b :: l) → eq ≤ b → eq < ep →
    emaRun mq eq l < emaRun mp ep l ∧ emaRun mq eq l ≤ (b :: l).getLast (by simp) := by
  intro l
  induction l with
  | nil =>
    intro b ep eq _ hqb hqp
    exact ⟨hqp, by simpa using hqb⟩
  | cons x xs ih =>
    intro b ep eq hchain hqb hqp
    have hbx : b < x := List.chain'_cons.mp hchain |>.1
    have hchain' : List.Chain' (· < ·) (x :: xs) := List.chain'_cons.mp hchain |>.2
    have hq' : (x - eq) * mq + eq ≤ x := by nlinarith
    have hstep : (x - eq) * mq + eq < (x - ep) * mp + ep := by nlinarith
    have hres := ih x ((x - ep) * mp + ep) ((x - eq) * mq + eq) hchain' hq' hstep
    refine ⟨hres.1, ?_⟩
    have hlast : ((b :: x :: xs).getLast (by simp)) = ((x :: xs).getLast (by simp)) := by
      rw [List.getLast_cons]
    rw [hlast]
    exact hres.2

theorem foldl_add_rat : ∀ (l : List ℚ) (a : ℚ), l.foldl (· + ·) a = a + l.sum := by
  intro l
  induction l with
  | nil => intro a; simp
  | cons x xs ih => intro a; rw [List.foldl_cons, ih, List.sum_cons]; ring

theorem le_getLast_of_pairwise :
    ∀ (l : List ℚ), List.Pairwise (· < ·) l → ∀ y ∈ l, ∀ (hne : l ≠ []), y ≤ l.getLast hne := by
  intro l
  induction l with
  | nil => intro _ y hy; exact absurd hy (List.not_mem_nil y)
  | cons a t ih =>
    intro hp y hy hne
    cases t with
    | nil => simp at hy; simp [hy]
    | cons b t' =>
      rw [List.getLast_cons (by simp)]
      rcases List.mem_cons.mp hy with rfl | hyt
      · have hb : y < List.getLast (b :: t') (by simp) :=
          (List.pairwise_cons.mp hp).1 _ (List.getLast_mem _)
        exact le_of_lt hb
      · exact ih (List.pairwise_cons.mp hp).2 y hyt (by simp)

theorem sum_le_mul_getLast (l : List ℚ) (hp : List.Pairwise (· < ·) l) (hne : l ≠ []) :
    l.sum ≤ (l.length : ℚ) * l.getLast hne := by
  have h := List.sum_le_card_nsmul l (l.getLast hne) (fun y hy => le_getLast_of_pairwise l hp y hy hne)
  rwa [nsmul_eq_mul] at h

/-- Running-mean lemma: consuming a strictly increasing tail `v` whose elements
all exceed the bound `b` of everything seen so far, an EMA that starts at or
above the running mean ends strictly above the final mean (strict as soon as
one element is consumed).  Means are kept in cleared-denominator form
`s ≤ n * e`. -/
theorem emaRun_gt_mean (m : ℚ) (hm1 : m ≤ 1) :
    ∀ (v : List ℚ) (b s e : ℚ) (n : ℕ),
    List.Chain' (· < ·) (b :: v) → s ≤ (n : ℚ) * b →
    s ≤ (n : ℚ) * e → 1 < m * ((n : ℚ) + 1) → 0 < (n : ℚ) →
    (s + v.sum ≤ ((n : ℚ) + v.length) * emaRun m e v ∧
      (v ≠ [] → s + v.sum < ((n : ℚ) + v.length) * emaRun m e v)) := by
  intro v
  induction v with
  | nil =>
    intro b s e n _ _ hse _ _
    refine ⟨by simpa using hse, fun h => absurd rfl h⟩
  | cons x xs ih =>
    intro b s e n hchain hsb hse hm hn0
    have hbx : b < x := (List.chain'_cons.mp hchain).1
    have hchain' : List.Chain' (· < ·) (x :: xs) := (List.chain'_cons.mp hchain).2
    have hm0 : 0 < m := by nlinarith
    have hsx : s < (n : ℚ) * x := by nlinarith
    -- the stepped EMA stays strictly above the stepped mean
    have hkey : s + x < ((n : ℚ) + 1) * ((x - e) * m + e) := by
      have h1 : 0 ≤ ((n : ℚ) + 1) * ((1 - m) * ((n : ℚ) * e - s)) :=
        mul_nonneg (by positivity) (mul_nonneg (by linarith) (by linarith))
      have h2 : 0 < (m * ((n : ℚ) + 1) - 1) * ((n : ℚ) * x - s) :=
        mul_pos (by linarith) (by linarith)
      nlinarith [h1, h2, hn0]
    have hsb' : s + x ≤ ((n : ℚ) + 1) * x := by nlinarith
    have hm' : 1 < m * (((n : ℚ) + 1) + 1) := by nlinarith
    have hres := ih x (s + x) ((x - e) * m + e) (n + 1) hchain'
      (by push_cast; linarith) (by push_cast; linarith [le_of_lt hkey])
      (by push_cast; linarith) (by push_cast; linarith)
    constructor
    · show s + (x :: xs).sum ≤ ((n : ℚ) + ((x :: xs).length : ℚ)) * emaRun m e (x :: xs)
      rw [List.sum_cons, List.length_cons]
      have h := hres.1
      push_cast at h ⊢
      calc s + (x + xs.sum) = (s + x) + xs.sum := by ring
        _ ≤ (((n : ℚ) + 1) + (xs.length : ℚ)) * emaRun m ((x - e) * m + e) xs := h
        _ = ((n : ℚ) + ((xs.length : ℚ) + 1)) * emaRun m e (x :: xs) := by
            rw [show emaRun m e (x :: xs) = emaRun m ((x - e) * m + e) xs from rfl]; ring
    · intro _
      show s + (x :: xs).sum < ((n : ℚ) + ((x :: xs).length : ℚ)) * emaRun m e (x :: xs)
      rw [List.sum_cons, List.length_cons]
      cases xs with
      | nil =>
        have hone : emaRun m e [x] = (x - e) * m + e := rfl
        simp only [List.sum_nil, List.length_nil, hone]
        push_cast
        linarith [hkey]
      | cons y ys =>
        have h := hres.2 (by simp)
        push_cast at h ⊢
        calc s + (x + (y :: ys).sum) = (s + x) + (y :: ys).sum := by ring
          _ < (((n : ℚ) + 1) + (((y :: ys).length : ℚ))) * emaRun m ((x - e) * m + e) (y :: ys) := by
              push_cast at h ⊢; linarith
          _ = ((n : ℚ) + (((y :: ys).length : ℚ) + 1)) * emaRun m e (x :: y :: ys) := by
              rw [show emaRun m e (x :: y :: ys) = emaRun m ((x - e) * m + e) (y :: ys) from rfl]; ring

theorem emaSeed_eq (x : List ℚ) (p : ℕ) : emaSeed x p = (x.take p).sum / (p : ℚ) := by
  unfold emaSeed
  rw [foldl_add_rat, zero_add]

theorem chain'_get_cons_drop (x : List ℚ) (hx : List.Chain' (· < ·) x) (k : ℕ)
    (hk : k < x.length) :
    List.Chain' (· < ·) (x.get ⟨k, hk⟩ :: x.drop (k + 1)) := by
  have hpair := List.chain'_iff_pairwise.mp hx
  have hsub : List.Sublist (x.get ⟨k, hk⟩ :: x.drop (k + 1)) x := by
    have hdec : x.take k ++ (x.get ⟨k, hk⟩ :: x.drop (k + 1)) = x := by
      rw [← List.drop_eq_get_cons hk, List.take_append_drop]
    have h := List.sublist_append_right (x.take k) (x.get ⟨k, hk⟩ :: x.drop (k + 1))
    rwa [hdec] at h
  exact List.chain'_iff_pairwise.mpr (hpair.sublist hsub)

theorem sum_take_le_get (x : List ℚ) (hx : List.Chain' (· < ·) x) (k : ℕ)
    (hk1 : 1 ≤ k) (hk : k ≤ x.length) :
    (x.take k).sum ≤ (k : ℚ) * x.get ⟨k - 1, by omega⟩ := by
  have hpair := List.chain'_iff_pairwise.mp hx
  have hbound : ∀ y ∈ x.take k, y ≤ x.get ⟨k - 1, by omega⟩ := by
    intro y hy
    obtain ⟨i, hi⟩ := List.get_of_mem hy
    rcases i with ⟨iv, hiv⟩
    have hik : iv < k := by
      rw [List.length_take] at hiv
      omega
    have hivx : iv < x.length := by omega
    have hget : (x.take k).get ⟨iv, hiv⟩ = x.get ⟨iv, hivx⟩ :=
      (List.get_take x hivx hik).symm
    rw [← hi, hget]
    rcases Nat.lt_or_ge iv (k - 1) with hlt | hge
    · exact le_of_lt (List.pairwise_iff_get.mp hpair ⟨iv, hivx⟩ ⟨k - 1, by omega⟩
        (by simp only [Fin.mk_lt_mk]; omega))
    · have hiv_eq : iv = k - 1 := by omega
      subst hiv_eq
      exact le_refl _
  have h := List.sum_le_card_nsmul (x.take k) _ hbound
  rw [List.length_take, min_eq_left hk, nsmul_eq_mul] at h
  exact h

/-- Faster EMAs dominate slower ones on strictly increasing data: for periods
`p < q` both fitting in the data, the final `q`-period EMA is strictly below
the final `p`-period EMA. -/
theorem emaFinal_lt_emaFinal (x : List ℚ) (p q : ℕ)
    (hx : List.Chain' (· < ·) x) (hp : 1 ≤ p) (hpq : p < q) (hq : q ≤ x.length) :
    emaFinal x q < emaFinal x p := by
  have hpl : p ≤ x.length := le_trans (le_of_lt hpq) hq
  have hq1 : 1 ≤ q := by omega
  have hp1 : p - 1 < x.length := by omega
  have hq1l : q - 1 < x.length := by omega
  have hqQ : (0 : ℚ) < (q : ℚ) := by exact_mod_cast (by omega : 0 < q)
  have hpQ : (0 : ℚ) < (p : ℚ) := by exact_mod_cast (by omega : 0 < p)
  have hmp1 : 2 / ((p : ℚ) + 1) ≤ 1 := by
    rw [div_le_one (by positivity)]
    have h1p : (1 : ℚ) ≤ (p : ℚ) := by exact_mod_cast hp
    linarith
  have hdropp : x.drop p = (x.drop p).take (q - p) ++ x.drop q := by
    conv_lhs => rw [← List.take_append_drop (q - p) (x.drop p)]
    rw [List.drop_drop, show p + (q - p) = q from by omega]
  have hmidlen : ((x.drop p).take (q - p)).length = q - p := by
    rw [List.length_take, List.length_drop]
    omega
  have hmidne : (x.drop p).take (q - p) ≠ [] := by
    apply List.ne_nil_of_length_pos
    rw [hmidlen]
    omega
  have hchainp : List.Chain' (· < ·) (x.get ⟨p - 1, hp1⟩ :: x.drop p) := by
    have h := chain'_get_cons_drop x hx (p - 1) hp1
    rwa [show p - 1 + 1 = p from by omega] at h
  have hchainmid : List.Chain' (· < ·) (x.get ⟨p - 1, hp1⟩ :: (x.drop p).take (q - p)) := by
    apply List.chain'_iff_pairwise.mpr
    apply (List.chain'_iff_pairwise.mp hchainp).sublist
    exact List.Sublist.cons₂ _ (List.take_sublist _ _)
  have hsump : (x.take p).sum ≤ (p : ℚ) * x.get ⟨p - 1, hp1⟩ := sum_take_le_get x hx p hp hpl
  have hsumq : (x.take q).sum ≤ (q : ℚ) * x.get ⟨q - 1, hq1l⟩ := sum_take_le_get x hx q hq1 hq
  have hseedp_mul : (x.take p).sum ≤ (p : ℚ) * emaSeed x p := by
    rw [emaSeed_eq, mul_div_cancel₀ _ (ne_of_gt hpQ)]
  have hm_lower : 1 < (2 / ((p : ℚ) + 1)) * ((p : ℚ) + 1) := by
    rw [div_mul_cancel₀ (2 : ℚ) (by positivity : ((p : ℚ) + 1) ≠ 0)]
    norm_num
  have hmean := emaRun_gt_mean (2 / ((p : ℚ) + 1)) hmp1 ((x.drop p).take (q - p))
    (x.get ⟨p - 1, hp1⟩) ((x.take p).sum) (emaSeed x p) p hchainmid hsump hseedp_mul
    hm_lower hpQ
  have hstrict := hmean.2 hmidne
  have htakeq : x.take q = x.take p ++ (x.drop p).take (q - p) := by
    have h := List.take_add x p (q - p)
    rwa [show p + (q - p) = q from by omega] at h
  have hsum_split : (x.take q).sum = (x.take p).sum + ((x.drop p).take (q - p)).sum := by
    rw [htakeq, List.sum_append]
  have hlen_cast : (p : ℚ) + (((x.drop p).take (q - p)).length : ℚ) = (q : ℚ) := by
    rw [hmidlen, Nat.cast_sub (le_of_lt hpq)]
    ring
  have hEqEp : emaSeed x q <
      emaRun (2 / ((p : ℚ) + 1)) (emaSeed x p) ((x.drop p).take (q - p)) := by
    rw [emaSeed_eq, div_lt_iff hqQ]
    calc (x.take q).sum = (x.take p).sum + ((x.drop p).take (q - p)).sum := hsum_split
      _ < ((p : ℚ) + (((x.drop p).take (q - p)).length : ℚ)) *
            emaRun (2 / ((p : ℚ) + 1)) (emaSeed x p) ((x.drop p).take (q - p)) := hstrict
      _ = emaRun (2 / ((p : ℚ) + 1)) (emaSeed x p) ((x.drop p).take (q - p)) * (q : ℚ) := by
          rw [hlen_cast, mul_comm]
  have hEqb : emaSeed x q ≤ x.get ⟨q - 1, hq1l⟩ := by
    rw [emaSeed_eq, div_le_iff hqQ]
    calc (x.take q).sum ≤ (q : ℚ) * x.get ⟨q - 1, hq1l⟩ := hsumq
      _ = x.get ⟨q - 1, hq1l⟩ * (q : ℚ) := mul_comm _ _
  have hchainq : List.Chain' (· < ·) (x.get ⟨q - 1, hq1l⟩ :: x.drop q) := by
    have h := chain'_get_cons_drop x hx (q - 1) hq1l
    rwa [show q - 1 + 1 = q from by omega] at h
  have hmlt : 2 / ((q : ℚ) + 1) < 2 / ((p : ℚ) + 1) := by
    rw [div_lt_div_iff (by positivity) (by positivity)]
    have hpq' : (p : ℚ) < (q : ℚ) := by exact_mod_cast hpq
    linarith
  have hfinal := emaRun_lt_of_lt (2 / ((p : ℚ) + 1)) (2 / ((q : ℚ) + 1)) hmp1 hmlt
    (x.drop q) (x.get ⟨q - 1, hq1l⟩)
    (emaRun (2 / ((p : ℚ) + 1)) (emaSeed x p) ((x.drop p).take (q - p)))
    (emaSeed x q) hchainq hEqb hEqEp
  show emaRun (2 / ((q : ℚ) + 1)) (emaSeed x q) (x.drop q) <
    emaRun (2 / ((p : ℚ) + 1)) (emaSeed x p) (x.drop p)
  rw [hdropp, emaRun_append]
  exact hfinal.1

/-- Short-term Guppy periods (line 41). -/
def shortPeriods : List ℕ := [3, 5, 8, 10, 12, 15]

/-- Long-term Guppy periods (line 43). -/
def longPeriods : List ℕ := [30, 35, 40, 45, 50, 60]

/-- The inner EMA lookup of the Guppy loop (lines 59-72): value pushed for
period `p` at candle index `i` when `emaIndex = i - (p - 1)` is inside the
period's EMA array. -/
def guppyPick (closes : List ℚ) (i p : ℕ) : Option ℚ :=
  let emas := calculateEMA closes p
  let emaIndex : ℤ := (i : ℤ) - ((p : ℤ) - 1)
  if 0 ≤ emaIndex ∧ emaIndex < (emas.length : ℤ) then emas.get? emaIndex.toNat else none

/-- `calculateGuppy` (lines 35-84): empty under 60 candles, else for each
index from 59 on, collect the six short and six long EMA values and emit a
point only when all twelve are present. -/
def calculateGuppy (data : List Candle) : List GuppyData :=
  if data.length < 60 then []
  else
    let closes := data.map Candle.close
    (List.range' 59 (data.length - 59)).filterMap fun i =>
      let shortValues := shortPeriods.filterMap (guppyPick closes i)
      let longValues := longPeriods.filterMap (guppyPick closes i)
      if shortValues.length = 6 ∧ longValues.length = 6 then
        some ⟨(data.getD i default).time, shortValues, longValues⟩
      else none

theorem guppyPick_final (x : List ℚ) (p i : ℕ) (hp : 1 ≤ p) (hpx : p ≤ x.length)
    (hi : i + 1 = x.length) :
    guppyPick x i p = some (emaFinal x p) := by
  show (if 0 ≤ (i : ℤ) - ((p : ℤ) - 1) ∧
        (i : ℤ) - ((p : ℤ) - 1) < ((calculateEMA x p).length : ℤ) then
      (calculateEMA x p).get? ((i : ℤ) - ((p : ℤ) - 1)).toNat else none) = some (emaFinal x p)
  have hlen : (calculateEMA x p).length = x.length - p + 1 := calculateEMA_length x p hpx
  rw [hlen]
  rw [if_pos (by constructor <;> [omega; (push_cast; omega)])]
  rw [show (((i : ℤ) - ((p : ℤ) - 1)).toNat) = x.length - p from by omega]
  exact calculateEMA_get_final x p hpx

theorem guppy_values_sixty (x : List ℚ) (hx : x.length = 60) :
    shortPeriods.filterMap (guppyPick x 59) =
      [emaFinal x 3, emaFinal x 5, emaFinal x 8, emaFinal x 10, emaFinal x 12, emaFinal x 15] ∧
    longPeriods.filterMap (guppyPick x 59) =
      [emaFinal x 30, emaFinal x 35, emaFinal x 40, emaFinal x 45, emaFinal x 50,
        emaFinal x 60] := by
  have hpick : ∀ p : ℕ, 1 ≤ p → p ≤ 60 → guppyPick x 59 p = some (emaFinal x p) := by
    intro p h1 h60
    exact guppyPick_final x p 59 h1 (by omega) (by omega)
  constructor
  · show List.filterMap (guppyPick x 59) [3, 5, 8, 10, 12, 15] = _
    rw [List.filterMap_cons, hpick 3 (by norm_num) (by norm_num)]
    rw [List.filterMap_cons, hpick 5 (by norm_num) (by norm_num)]
    rw [List.filterMap_cons, hpick 8 (by norm_num) (by norm_num)]
    rw [List.filterMap_cons, hpick 10 (by norm_num) (by norm_num)]
    rw [List.filterMap_cons, hpick 12 (by norm_num) (by norm_num)]
    rw [List.filterMap_cons, hpick 15 (by norm_num) (by norm_num)]
    rfl
  · show List.filterMap (guppyPick x 59) [30, 35, 40, 45, 50, 60] = _
    rw [List.filterMap_cons, hpick 30 (by norm_num) (by norm_num)]
    rw [List.filterMap_cons, hpick 35 (by norm_num) (by norm_num)]
    rw [List.filterMap_cons, hpick 40 (by norm_num) (by norm_num)]
    rw [List.filterMap_cons, hpick 45 (by norm_num) (by norm_num)]
    rw [List.filterMap_cons, hpick 50 (by norm_num) (by norm_num)]
    rw [List.filterMap_cons, hpick 60 (by norm_num) (by norm_num)]
    rfl

theorem calculateGuppy_sixty (data : List Candle) (h60 : data.length = 60) :
    calculateGuppy data =
      [⟨(data.getD 59 default).time,
        [emaFinal (data.map Candle.close) 3, emaFinal (data.map Candle.close) 5,
          emaFinal (data.map Candle.close) 8, emaFinal (data.map Candle.close) 10,
          emaFinal (data.map Candle.close) 12, emaFinal (data.map Candle.close) 15],
        [emaFinal (data.map Candle.close) 30, emaFinal (data.map Candle.close) 35,
          emaFinal (data.map Candle.close) 40, emaFinal (data.map Candle.close) 45,
          emaFinal (data.map Candle.close) 50, emaFinal (data.map Candle.close) 60]⟩] := by
  have hcl : (data.map Candle.close).length = 60 := by rw [List.length_map, h60]
  have hvals := guppy_values_sixty (data.map Candle.close) hcl
  unfold calculateGuppy
  rw [if_neg (by omega), h60]
  rw [show (60 : ℕ) - 59 = 1 from rfl, show List.range' 59 1 = [59] from rfl]
  rw [List.filterMap_cons]
  simp only [hvals.1, hvals.2]
  rw [if_pos (by constructor <;> rfl)]
  rfl

/-- C8: `calculateGuppy` returns an empty sequence for every input of fewer
than 60 candles, and for an input of exactly 60 candles with strictly
increasing closes it returns exactly one point, at the last candle's time, in
which each of the 6 short EMAs (periods 3,5,8,10,12,15) is greater than each
of the 6 long EMAs (periods 30,35,40,45,50,60). -/
theorem calculateGuppy_spec :
    (∀ data : List Candle, data.length < 60 → calculateGuppy data = []) ∧
    (∀ data : List Candle, data.length = 60 →
      List.Chain' (· < ·) (data.map Candle.close) →
      (calculateGuppy data).length = 1 ∧
      ∀ g ∈ calculateGuppy data,
        g.time = (data.getLastD default).time ∧
        g.short.length = 6 ∧ g.long.length = 6 ∧
        ∀ s ∈ g.short, ∀ l ∈ g.long, l < s) := by
  constructor
  · intro data hlt
    unfold calculateGuppy
    rw [if_pos hlt]
  · intro data h60 hchain
    have hcl : (data.map Candle.close).length = 60 := by rw [List.length_map, h60]
    have hD : data.getD 59 default = data.getLastD default := by
      rw [List.getLastD_eq_getLast?, List.getLast?_eq_get?, h60, List.getD_eq_get?]
    rw [calculateGuppy_sixty data h60]
    refine ⟨rfl, ?_⟩
    intro g hg
    rw [List.mem_singleton] at hg
    subst hg
    refine ⟨by rw [hD], rfl, rfl, ?_⟩
    intro s hs l hl
    simp only [List.mem_cons, List.not_mem_nil, or_false] at hs hl
    rcases hs with rfl | rfl | rfl | rfl | rfl | rfl <;>
      rcases hl with rfl | rfl | rfl | rfl | rfl | rfl <;>
      exact emaFinal_lt_emaFinal (data.map Candle.close) _ _ hchain (by norm_num)
        (by norm_num) (by norm_num [hcl])

/-- A 60-candle input with strictly increasing closes `0, 1, …, 59`. -/
def guppy60 : List Candle :=
  (List.range 60).map fun i : ℕ => ⟨(i : ℤ), 0, 0, 0, (i : ℚ), 0⟩

/-- Concrete instantiation of the Guppy theorem: the empty input produces no
points, and the strictly increasing 60-candle input produces exactly one. -/
theorem calculateGuppy_spec_witness :
    calculateGuppy [] = [] ∧ (calculateGuppy guppy60).length = 1 :=
  ⟨calculateGuppy_spec.1 [] (by decide),
    (calculateGuppy_spec.2 guppy60 (by rw [guppy60, List.length_map, List.length_range])
      (by
        rw [guppy60, List.map_map]
        apply List.chain'_iff_pairwise.mpr
        rw [List.pairwise_map]
        refine List.Pairwise.imp (fun {a b} hab => ?_) (List.pairwise_lt_range 60)
        show (a : ℚ) < (b : ℚ)
        exact_mod_cast hab)).1⟩

end Chartings
